import Mathlib

/-!
Verification of the tool-use orchestration core of the agentic-employee-v2
repository against its natural-language specification.

The development shallowly embeds the relevant TypeScript modules:

* `src/config/sandbox.ts` (`ensureUnderAllowedB`)
* `src/tools/executor.ts` (`executeFilesystemTool`, `executeToolE`)
* `src/journal/index.ts` (journal entries, `rollbackEntry`, `rollbackRun`)
* `src/core/retry.ts` (`withRetry`)
* `src/core/orchestrator.ts` (`topoSort`)
* `src/ai/router.ts` (`detectTaskType`, `selectProvider`, `AIRouter.complete`)
* `src/core/types.ts` (the agent loop `AgentLoop.run`)

Effectful code is embedded as pure functions that additionally return an
explicit trace of the filesystem effects they would perform (`Eff`), or are
parameterised by oracles standing for the outcomes of external calls
(provider completions, tool dispatches).
-/

namespace AgenticV2

/-- JS `haystack.includes(needle)`: substring containment on strings,
implemented over character lists so that it evaluates by `decide`. -/
def containsStr (hay needle : String) : Bool :=
  hay.toList.tails.any (fun t => needle.toList.isPrefixOf t)

/-- JS `s.startsWith(pre)` over character lists. -/
def strStartsWith (s pre : String) : Bool :=
  pre.toList.isPrefixOf s.toList

/-! ## Sandbox (src/config/sandbox.ts) -/

/-- `SANDBOX.allowedRoot` from src/config/sandbox.ts. -/
def allowedRoot : String := "demo_v2"

/-- The normalisation performed by `ensureUnderAllowed`: replace every
backslash by a forward slash. -/
def normSlashes (p : String) : String :=
  (p.toList.map (fun c => if c = '\\' then '/' else c)).asString

/-- Boolean form of `ensureUnderAllowed` (src/config/sandbox.ts): `true`
means the path is allowed, `false` means the function throws an error with
code `SANDBOX_PATH_DENY`. -/
def ensureUnderAllowedB (p : String) : Bool :=
  strStartsWith (normSlashes p) allowedRoot

/-! ## Tool executor (src/tools/executor.ts and src/execution/index.ts)

The executor is embedded as a pure function returning, besides its result,
the ordered trace of filesystem-relevant events it performs.  Audit events
(pino log lines) are not filesystem effects and are omitted from traces. -/

/-- One filesystem-relevant event of the executor. -/
inductive Eff where
  | sandboxCheck (p : String)
  | fsRead (p : String)
  | fsReaddir (p : String)
  | fsStat (p : String)
  | fsWrite (p : String)
  | fsMkdir (p : String)
  | fsChmod (p : String)
  | fsRm (p : String)
  | fsRename (src dst : String)
  | fsCp (src dst : String)
  | journalAppend (kind p : String)
  | handlerInvoked (tool : String)
  deriving DecidableEq, Repr

/-- Whether an event mutates the filesystem (journal appends write the
journal file, and for modify/delete also a backup artifact). Probes
(`existsSync`, `readFile`, `readdir`, `stat`), the sandbox check itself and
the handler-entry marker are not mutations. -/
def Eff.effectful : Eff → Bool
  | .fsWrite _ | .fsMkdir _ | .fsChmod _ | .fsRm _ => true
  | .fsRename _ _ | .fsCp _ _ | .journalAppend _ _ => true
  | _ => false

/-- The dynamic argument object passed to a tool handler.  Absent JS
properties are `none`. -/
structure ToolArgs where
  op : Option String := none
  path : Option String := none
  content : Option String := none
  mode : Option String := none
  destination : Option String := none
  thought : Option String := none
  deriving DecidableEq, Repr

/-- The `ResultEnvelope` of src/core/errors.ts restricted to the fields the
claims need. -/
structure Envl where
  ok : Bool
  code : String
  deriving DecidableEq, Repr

/-- `execFilesystem` from src/execution/index.ts: zod-validate
`(op, path)` with `op ∈ write|mkdir|chmod`, then `ensureUnderAllowed path`,
then perform the single filesystem action.  Any throw is caught and turned
into an error envelope; `ensureUnderAllowed` throws with code
`SANDBOX_PATH_DENY`, which is not `DENIED`, so a denial is reported as
`EXEC_ERROR`. -/
def execFilesystemCore (args : ToolArgs) : Envl × List Eff :=
  match args.op, args.path with
  | some op, some path =>
    if op = "write" ∨ op = "mkdir" ∨ op = "chmod" then
      if ensureUnderAllowedB path then
        let act : Eff :=
          if op = "mkdir" then .fsMkdir path
          else if op = "write" then .fsWrite path
          else .fsChmod path
        (⟨true, "OK"⟩, [.sandboxCheck path, act])
      else (⟨false, "EXEC_ERROR"⟩, [.sandboxCheck path])
    else (⟨false, "EXEC_ERROR"⟩, [])
  | _, _ => (⟨false, "EXEC_ERROR"⟩, [])

/-- `executeFilesystem` from src/tools/executor.ts.  `world` maps a path to
the content of the file stored there (`none`: no file).  The returned value
abstracts the JS output object as a string; thrown errors are `.error`.
Outputs of `list`, `move` and `copy` are abstracted as fixed strings; the
trace records the filesystem accesses they perform. -/
def executeFilesystemTool (world : String → Option String) (args : ToolArgs) :
    Except String String × List Eff :=
  match args.op with
  | some "write" =>
    let pstr := args.path.getD "undefined"
    let fileExists := (world pstr).isSome
    let pre : List Eff := if fileExists then [.fsRead pstr] else []
    let core := execFilesystemCore args
    let jkind := if fileExists then "file_modify" else "file_create"
    (.ok core.1.code, pre ++ core.2 ++ [.journalAppend jkind pstr])
  | some "mkdir" =>
    let pstr := args.path.getD "undefined"
    let core := execFilesystemCore args
    (.ok core.1.code, core.2 ++ [.journalAppend "directory_create" pstr])
  | some "chmod" =>
    let core := execFilesystemCore args
    (.ok core.1.code, core.2)
  | some "read" =>
    let pstr := args.path.getD "undefined"
    match world pstr with
    | some c => (.ok c, [.fsRead pstr])
    | none => (.error "ENOENT", [.fsRead pstr])
  | some "list" =>
    let pstr := args.path.getD "undefined"
    (.ok "listing", [.fsReaddir pstr])
  | some "delete" =>
    let pstr := args.path.getD "undefined"
    let wasFile := (world pstr).isSome
    let pre : List Eff := if wasFile then [.fsStat pstr, .fsRead pstr] else [.fsStat pstr]
    let post : List Eff := if wasFile then [.journalAppend "file_delete" pstr] else []
    (.ok "deleted", pre ++ [.fsRm pstr] ++ post)
  | some "move" =>
    let pstr := args.path.getD "undefined"
    let dstr := args.destination.getD "undefined"
    (.ok "moved", [.fsRename pstr dstr])
  | some "copy" =>
    let pstr := args.path.getD "undefined"
    let dstr := args.destination.getD "undefined"
    (.ok "copied", [.fsCp pstr dstr])
  | _ => (.error ("Unknown filesystem operation: " ++ args.op.getD "undefined"), [])

/-- The result shape of the tool dispatcher (`ToolResult` in
src/tools/executor.ts). -/
structure ToolResultE where
  success : Bool
  output : String
  error : String
  deriving DecidableEq, Repr

/-- `executeTool` from src/tools/executor.ts, for the tools whose handlers
are embedded here (`filesystem`, `think`, `report`); every other name falls
through to the MCP check, modelled with no MCP tools registered, and then
throws `Unknown tool`.  The switch dispatches directly on the name: no
argument-schema validation happens before the handler runs, which the
`handlerInvoked` trace event records. -/
def executeToolE (world : String → Option String) (toolName : String) (args : ToolArgs) :
    ToolResultE × List Eff :=
  match toolName with
  | "filesystem" =>
    let r := executeFilesystemTool world args
    match r.1 with
    | .ok out => (⟨true, out, ""⟩, .handlerInvoked "filesystem" :: r.2)
    | .error e => (⟨false, "", e⟩, .handlerInvoked "filesystem" :: r.2)
  | "think" => (⟨true, "thought", ""⟩, [.handlerInvoked "think"])
  | "report" => (⟨true, "reported", ""⟩, [.handlerInvoked "report"])
  | _ => (⟨false, "", "Unknown tool: " ++ toolName⟩, [])

/-- The declared argument schema of the `filesystem` tool
(src/tools/definitions.ts): properties with `required = [op, path]` and the
`op` enumeration.  This is a spec-side validator, used only to state what
schema validation would reject; the dispatcher in the source has no
counterpart of it. -/
def filesystemArgsValid (args : ToolArgs) : Bool :=
  match args.op, args.path with
  | some op, some _ =>
    ["read", "write", "mkdir", "chmod", "list", "delete", "move", "copy"].contains op
  | _, _ => false

/-- A world holding the single file `/etc/passwd`. -/
def cxWorld : String → Option String :=
  fun p => if p = "/etc/passwd" then some "root:x:0:0:root:/root:/bin/bash" else none

/-- C1 counterexample: dispatching the filesystem tool with
`op = delete, path = /etc/passwd` — a path the sandbox denies — performs the
effectful `fs.rm` on the target while no sandbox check at all appears in the
trace, contradicting the claim that every filesystem operation passes the
sandbox check before any effect and that a denied target causes no effect. -/
theorem C1_counterexample :
    ensureUnderAllowedB "/etc/passwd" = false ∧
    Eff.fsRm "/etc/passwd" ∈
      (executeToolE cxWorld "filesystem" ⟨some "delete", some "/etc/passwd", none, none, none, none⟩).2 ∧
    (Eff.fsRm "/etc/passwd").effectful = true ∧
    Eff.sandboxCheck "/etc/passwd" ∉
      (executeToolE cxWorld "filesystem" ⟨some "delete", some "/etc/passwd", none, none, none, none⟩).2 := by
  decide

/-- C1 amended: only the `write`, `mkdir` and `chmod` operations apply the
sandbox check.  For these, the check happens before the first effectful
event of the trace, and a denied target suffers no write/mkdir/chmod effect
(though denied `write` and `mkdir` still append a journal record). -/
theorem C1_amended (world : String → Option String) (args : ToolArgs) (op path : String)
    (hop : args.op = some op) (hpath : args.path = some path)
    (hmem : op = "write" ∨ op = "mkdir" ∨ op = "chmod") :
    ((executeToolE world "filesystem" args).2.filter Eff.effectful ≠ [] →
      Eff.sandboxCheck path ∈
        (executeToolE world "filesystem" args).2.takeWhile (fun e => !e.effectful)) ∧
    (ensureUnderAllowedB path = false →
      Eff.fsWrite path ∉ (executeToolE world "filesystem" args).2 ∧
      Eff.fsMkdir path ∉ (executeToolE world "filesystem" args).2 ∧
      Eff.fsChmod path ∉ (executeToolE world "filesystem" args).2) := by
  rcases hmem with h | h | h <;> subst h <;>
    simp only [executeToolE, executeFilesystemTool, execFilesystemCore, hop, hpath] <;>
    rcases hall : ensureUnderAllowedB path with _ | _
  · rcases hw : (world path).isSome with _ | _ <;>
      simp [hw, hall, Eff.effectful, List.takeWhile]
  · rcases hw : (world path).isSome with _ | _ <;>
      simp [hw, hall, Eff.effectful, List.takeWhile]
  · simp [hall, Eff.effectful, List.takeWhile]
  · simp [hall, Eff.effectful, List.takeWhile]
  · simp [hall, Eff.effectful, List.takeWhile]
  · simp [hall, Eff.effectful, List.takeWhile]

/-- Witness for C1_amended at a concrete denied `chmod` call. -/
theorem C1_amended_witness :
    (ToolArgs.op ⟨some "chmod", some "/x", none, none, none, none⟩ = some "chmod") ∧
    (ToolArgs.path ⟨some "chmod", some "/x", none, none, none, none⟩ = some "/x") ∧
    ("chmod" = "write" ∨ "chmod" = "mkdir" ∨ "chmod" = "chmod") ∧
    (((executeToolE cxWorld "filesystem" ⟨some "chmod", some "/x", none, none, none, none⟩).2.filter
        Eff.effectful ≠ [] →
      Eff.sandboxCheck "/x" ∈
        (executeToolE cxWorld "filesystem" ⟨some "chmod", some "/x", none, none, none, none⟩).2.takeWhile
          (fun e => !e.effectful)) ∧
    (ensureUnderAllowedB "/x" = false →
      Eff.fsWrite "/x" ∉ (executeToolE cxWorld "filesystem" ⟨some "chmod", some "/x", none, none, none, none⟩).2 ∧
      Eff.fsMkdir "/x" ∉ (executeToolE cxWorld "filesystem" ⟨some "chmod", some "/x", none, none, none, none⟩).2 ∧
      Eff.fsChmod "/x" ∉ (executeToolE cxWorld "filesystem" ⟨some "chmod", some "/x", none, none, none, none⟩).2)) :=
  ⟨rfl, rfl, Or.inr (Or.inr rfl),
    C1_amended cxWorld ⟨some "chmod", some "/x", none, none, none, none⟩ "chmod" "/x" rfl rfl
      (Or.inr (Or.inr rfl))⟩

/-- C3 counterexample: the empty argument object violates the filesystem
tool's declared schema (missing required `op` and `path`), yet `executeTool`
invokes the handler anyway (the thrown error originates inside the handler's
switch) and the failure carries that message, not `VALIDATION_FAIL`. -/
theorem C3_counterexample :
    filesystemArgsValid ⟨none, none, none, none, none, none⟩ = false ∧
    Eff.handlerInvoked "filesystem" ∈
      (executeToolE cxWorld "filesystem" ⟨none, none, none, none, none, none⟩).2 ∧
    (executeToolE cxWorld "filesystem" ⟨none, none, none, none, none, none⟩).1 =
      ⟨false, "", "Unknown filesystem operation: undefined"⟩ := by
  decide

/-- C3 amended: the dispatcher performs no argument validation at all: for
every argument object, valid or not, the filesystem handler is entered. -/
theorem C3_amended (world : String → Option String) (args : ToolArgs) :
    Eff.handlerInvoked "filesystem" ∈ (executeToolE world "filesystem" args).2 := by
  simp only [executeToolE]
  rcases executeFilesystemTool world args with ⟨r, tr⟩
  cases r <;> simp

/-! ## Journal (src/journal/index.ts)

The journal records reversible filesystem operations and supports per-entry
and per-run rollback.  The filesystem is modelled as an association list of
files (first entry for a key wins) plus a list of existing directories;
"restores the state byte-for-byte" is extensional equality of lookups
(`FS.Equiv`).  The backup artifact written by `journalFileModify` /
`journalFileDelete` always exists at rollback time and holds the recorded
before-content, so rollback's `copyFile(backupPath, target)` is modelled as
writing that content directly. -/

/-- A filesystem path as its list of components. -/
abbrev FPath := List String

/-- A filesystem snapshot. -/
structure FS where
  files : List (FPath × String)
  dirs : List FPath
  deriving DecidableEq, Repr

/-- First-match lookup in an association list of files. -/
def lookupL : List (FPath × String) → FPath → Option String
  | [], _ => none
  | e :: l, p => if e.1 = p then some e.2 else lookupL l p

/-- Remove every entry for path `p` (the effect of `unlink`). -/
def delL (l : List (FPath × String)) (p : FPath) : List (FPath × String) :=
  l.filter (fun e => decide (e.1 ≠ p))

/-- Content of the file at `p`, if any. -/
def FS.lookupFile (s : FS) (p : FPath) : Option String := lookupL s.files p

/-- Whether directory `p` exists. -/
def FS.isDir (s : FS) (p : FPath) : Bool := decide (p ∈ s.dirs)

/-- Extensional equality of filesystem snapshots. -/
def FS.Equiv (s t : FS) : Prop :=
  (∀ p, s.lookupFile p = t.lookupFile p) ∧ (∀ p, s.isDir p = t.isDir p)

/-- `q` lies strictly below `p` (is inside the directory tree rooted at `p`). -/
def strictUnderB (p q : FPath) : Bool := p.isPrefixOf q && !(p == q)

/-- Nothing (file or directory) lies strictly below `p`: the check `rmdir`
performs, and the condition under which a recorded `directory_create`
actually created a fresh empty directory. -/
def nothingUnderB (s : FS) (p : FPath) : Bool :=
  s.files.all (fun e => !strictUnderB p e.1) && s.dirs.all (fun q => !strictUnderB p q)

/-- All proper parent directories of `p` exist (a file can only live under
existing directories). -/
def parentsOkB (s : FS) (p : FPath) : Bool :=
  (p.dropLast.inits.filter (fun q => !q.isEmpty)).all (fun q => s.isDir q)

/-- The reversible journal actions of src/journal/index.ts, carrying the
data the journal records (target path, before/after content). -/
inductive FsOp where
  | fileCreate (p : FPath) (content : String)
  | fileModify (p : FPath) (before after : String)
  | fileDelete (p : FPath) (before : String)
  | dirCreate (p : FPath)
  deriving DecidableEq, Repr

/-- The target path of an operation. -/
def FsOp.target : FsOp → FPath
  | .fileCreate p _ => p
  | .fileModify p _ _ => p
  | .fileDelete p _ => p
  | .dirCreate p => p

/-- The filesystem change the recorded operation performed. -/
def applyOp (s : FS) : FsOp → FS
  | .fileCreate p c => { s with files := (p, c) :: s.files }
  | .fileModify p _ a => { s with files := (p, a) :: s.files }
  | .fileDelete p _ => { s with files := delL s.files p }
  | .dirCreate p => { s with dirs := p :: s.dirs }

/-- The recorded operation truthfully describes a filesystem action that
was possible in state `s`: created files were absent, modified/deleted
files held the recorded before-content under existing parents, and created
directories were fresh and empty. -/
def validOp (s : FS) : FsOp → Prop
  | .fileCreate p _ => s.lookupFile p = none
  | .fileModify p b _ => s.lookupFile p = some b
  | .fileDelete p b => s.lookupFile p = some b ∧ parentsOkB s p = true
  | .dirCreate p => s.isDir p = false ∧ nothingUnderB s p = true

/-- `mkdir(dirname(target), recursive = true)`: create every missing parent
directory of `p`. -/
def addParents (s : FS) (p : FPath) : FS :=
  { s with dirs := p.dropLast.inits.filter (fun q => !q.isEmpty) ++ s.dirs }

/-- The switch inside `rollbackEntry` (src/journal/index.ts lines 319-359):
`file_create` unlinks the target if present; `file_modify` restores the
backup content; `file_delete` recreates missing parents and restores the
backup; `directory_create` removes the directory and fails (`none`) when it
is missing or not empty. -/
def rollbackAction (s : FS) : FsOp → Option FS
  | .fileCreate p _ => some { s with files := delL s.files p }
  | .fileModify p b _ => some { s with files := (p, b) :: s.files }
  | .fileDelete p b =>
    some (let s2 := addParents s p; { s2 with files := (p, b) :: s2.files })
  | .dirCreate p =>
    if s.isDir p && nothingUnderB s p then
      some { s with dirs := s.dirs.filter (fun q => decide (q ≠ p)) }
    else none

/-- A persisted journal record (the fields rollback inspects). -/
structure JEntry where
  id : String
  op : FsOp
  canRollback : Bool
  rolledBack : Bool
  deriving DecidableEq, Repr

/-- The record the journal functions append for a reversible filesystem
operation: `canRollback = true`, `rolledBack = false`. -/
def mkEntry (id : String) (op : FsOp) : JEntry := ⟨id, op, true, false⟩

/-- The journal file of a run that performed `ops`, with entry ids `ids`. -/
def journalOf (ids : List String) (ops : List FsOp) : List JEntry :=
  List.zipWith mkEntry ids ops

/-- `rollbackEntry` (src/journal/index.ts): re-load the journal, find the
entry by id, guard (found / reversible / not already rolled back), run the
rollback switch, then append a synthetic rollback record.  The loaded
original entry is mutated only in memory: the persisted journal keeps its
line unchanged, so the appended record is the only durable trace. -/
def rollbackEntry (j : List JEntry) (s : FS) (entryId : String) :
    Bool × List JEntry × FS :=
  match j.find? (fun e => decide (e.id = entryId)) with
  | none => (false, j, s)
  | some e =>
    if !e.canRollback then (false, j, s)
    else if e.rolledBack then (false, j, s)
    else
      match rollbackAction s e.op with
      | none => (false, j, s)
      | some s2 =>
        (true, j ++ [{ e with id := "rollback-" ++ e.id, rolledBack := true }], s2)

/-- One step of `rollbackRun`'s loop: roll back the entry with the given id
and conjoin its success flag. -/
def rollbackRunStep (acc : Bool × List JEntry × FS) (e : JEntry) :
    Bool × List JEntry × FS :=
  let r := rollbackEntry acc.2.1 acc.2.2 e.id
  (acc.1 && r.1, r.2.1, r.2.2)

/-- `rollbackRun` (src/journal/index.ts lines 383-403): filter the loaded
entries to the reversible, not yet rolled back, non-synthetic ones, walk
them in reverse insertion order and roll each back; overall success is the
conjunction of the individual results. -/
def rollbackRun (j : List JEntry) (s : FS) : Bool × List JEntry × FS :=
  let targets :=
    (j.filter (fun e =>
      e.canRollback && !e.rolledBack && !(strStartsWith e.id "rollback-"))).reverse
  targets.foldl rollbackRunStep (true, j, s)

/-- Sequential application of recorded operations. -/
def applyAll (s : FS) (ops : List FsOp) : FS := ops.foldl applyOp s

/-- Every operation of the sequence was valid in the state it ran in. -/
def ValidSeq : FS → List FsOp → Prop
  | _, [] => True
  | s, op :: rest => validOp s op ∧ ValidSeq (applyOp s op) rest

lemma FS.Equiv.refl (s : FS) : FS.Equiv s s := ⟨fun _ => rfl, fun _ => rfl⟩

@[simp] lemma lookupL_nil (q : FPath) : lookupL [] q = none := rfl

@[simp] lemma lookupL_cons (e : FPath × String) (l : List (FPath × String)) (q : FPath) :
    lookupL (e :: l) q = if e.1 = q then some e.2 else lookupL l q := rfl

lemma lookupL_delL (l : List (FPath × String)) (p q : FPath) :
    lookupL (delL l p) q = if q = p then none else lookupL l q := by
  induction l with
  | nil => simp [delL]
  | cons e l ih =>
    simp only [delL, List.filter_cons] at ih ⊢
    by_cases hep : e.1 = p
    · rw [if_neg (by simp [hep])]
      rw [ih]
      by_cases hqp : q = p
      · simp [hqp]
      · have heq : e.1 ≠ q := fun h => hqp (by rw [← h, hep])
        simp [hqp, heq]
    · rw [if_pos (by simp [hep])]
      by_cases heq : e.1 = q
      · have hqp : q ≠ p := fun h => hep (by rw [heq, h])
        simp [heq, hqp]
      · simp only [lookupL_cons, if_neg heq]
        exact ih

lemma lookupL_eq_none_iff (l : List (FPath × String)) (q : FPath) :
    lookupL l q = none ↔ ∀ e ∈ l, e.1 ≠ q := by
  induction l with
  | nil => simp
  | cons e l ih =>
    by_cases heq : e.1 = q <;> simp [heq, ih]

lemma lookupL_ne_none_iff (l : List (FPath × String)) (q : FPath) :
    lookupL l q ≠ none ↔ ∃ e ∈ l, e.1 = q := by
  rw [Ne, lookupL_eq_none_iff]
  push_neg
  rfl

lemma strictUnderB_self (p : FPath) : strictUnderB p p = false := by
  simp [strictUnderB]

lemma nothingUnderB_iff (s : FS) (p : FPath) :
    nothingUnderB s p = true ↔
      ((∀ q, s.lookupFile q ≠ none → strictUnderB p q = false) ∧
       (∀ q, s.isDir q = true → strictUnderB p q = false)) := by
  unfold nothingUnderB
  rw [Bool.and_eq_true, List.all_eq_true, List.all_eq_true]
  constructor
  · rintro ⟨hf, hd⟩
    constructor
    · intro q hq
      obtain ⟨e, he, heq⟩ := (lookupL_ne_none_iff s.files q).mp hq
      have := hf e he
      rw [← heq]
      simpa using this
    · intro q hq
      have hq' : q ∈ s.dirs := by
        have : decide (q ∈ s.dirs) = true := hq
        exact of_decide_eq_true this
      simpa using hd q hq'
  · rintro ⟨hf, hd⟩
    constructor
    · intro e he
      have : s.lookupFile e.1 ≠ none :=
        (lookupL_ne_none_iff s.files e.1).mpr ⟨e, he, rfl⟩
      simpa using hf e.1 this
    · intro q hq
      have : s.isDir q = true := decide_eq_true hq
      simpa using hd q this

lemma nothingUnderB_congr {s t : FS} (h : FS.Equiv s t) (p : FPath) :
    nothingUnderB s p = nothingUnderB t p := by
  rcases h with ⟨hf, hd⟩
  by_cases hs : nothingUnderB s p = true
  · have := (nothingUnderB_iff s p).1 hs
    rw [hs, Eq.comm, nothingUnderB_iff]
    exact ⟨fun q hq => this.1 q (by rw [hf q]; exact hq),
           fun q hq => this.2 q (by rw [hd q]; exact hq)⟩
  · have hs' : nothingUnderB s p = false := by simpa using hs
    rw [hs', Eq.comm]
    by_contra hne
    have ht : nothingUnderB t p = true := by simpa using hne
    have := (nothingUnderB_iff t p).1 ht
    have : nothingUnderB s p = true := by
      rw [nothingUnderB_iff]
      exact ⟨fun q hq => this.1 q (by rw [← hf q]; exact hq),
             fun q hq => this.2 q (by rw [← hd q]; exact hq)⟩
    exact hs this

/-- Rolling back a validly recorded operation from any state extensionally
equal to the post-state succeeds and restores the pre-state. -/
lemma rollback_restores (s t : FS) (op : FsOp) (hv : validOp s op)
    (ht : FS.Equiv t (applyOp s op)) :
    ∃ s2, rollbackAction t op = some s2 ∧ FS.Equiv s2 s := by
  obtain ⟨htf, htd⟩ := ht
  cases op with
  | fileCreate p c =>
    refine ⟨_, rfl, ?_, ?_⟩
    · intro q
      show lookupL (delL t.files p) q = s.lookupFile q
      rw [lookupL_delL]
      have hq := htf q
      simp only [FS.lookupFile, applyOp, lookupL_cons] at hq ⊢
      by_cases hqp : q = p
      · subst hqp
        simp only [validOp, FS.lookupFile] at hv
        simp [hv]
      · rw [if_neg hqp]
        rw [if_neg (fun h : p = q => hqp h.symm)] at hq
        exact hq
    · intro q
      have := htd q
      simpa [applyOp, FS.isDir] using this
  | fileModify p b a =>
    refine ⟨_, rfl, ?_, ?_⟩
    · intro q
      show lookupL ((p, b) :: t.files) q = s.lookupFile q
      have hq := htf q
      simp only [FS.lookupFile, applyOp, lookupL_cons] at hq ⊢
      by_cases hpq : p = q
      · subst hpq
        simp only [validOp, FS.lookupFile] at hv
        simp [hv]
      · rw [if_neg hpq] at hq ⊢
        exact hq
    · intro q
      have := htd q
      simpa [applyOp, FS.isDir] using this
  | fileDelete p b =>
    obtain ⟨hv1, hv2⟩ := hv
    refine ⟨_, rfl, ?_, ?_⟩
    · intro q
      show lookupL ((p, b) :: (addParents t p).files) q = s.lookupFile q
      have hq := htf q
      simp only [FS.lookupFile, applyOp] at hq
      rw [lookupL_delL] at hq
      simp only [addParents, lookupL_cons, FS.lookupFile]
      by_cases hpq : p = q
      · subst hpq
        simp only [FS.lookupFile] at hv1
        simp [hv1]
      · rw [if_neg hpq]
        rw [if_neg (fun h : q = p => hpq h.symm)] at hq
        exact hq
    · intro q
      have hd := htd q
      simp only [applyOp, FS.isDir] at hd
      show decide (q ∈ (addParents t p).dirs) = s.isDir q
      simp only [addParents, List.mem_append]
      by_cases hq : q ∈ p.dropLast.inits.filter (fun r => !r.isEmpty)
      · have hqd : s.isDir q = true := by
          simp only [parentsOkB, List.all_eq_true] at hv2
          exact hv2 q hq
        simp [hq, hqd]
      · rw [decide_eq_decide.mpr (or_iff_right hq), hd]
        rfl
  | dirCreate p =>
    obtain ⟨hv1, hv2⟩ := hv
    have hdirp : t.isDir p = true := by
      rw [htd p]
      simp [applyOp, FS.isDir]
    have hnu : nothingUnderB t p = true := by
      rw [nothingUnderB_congr ⟨htf, htd⟩ p]
      rw [nothingUnderB_iff]
      have hsu := (nothingUnderB_iff s p).1 hv2
      constructor
      · intro q hq
        apply hsu.1 q
        simpa [applyOp, FS.lookupFile] using hq
      · intro q hq
        simp only [applyOp, FS.isDir, List.mem_cons, decide_eq_true_eq] at hq
        rcases hq with hq | hq
        · rw [hq]; exact strictUnderB_self p
        · exact hsu.2 q (decide_eq_true hq)
    refine ⟨{ t with dirs := t.dirs.filter (fun q => decide (q ≠ p)) }, ?_, ?_, ?_⟩
    · simp [rollbackAction, hdirp, hnu]
    · intro q
      have := htf q
      simpa [applyOp, FS.lookupFile] using this
    · intro q
      have hd := htd q
      simp only [applyOp, FS.isDir, List.mem_cons] at hd
      have hd' : q ∈ t.dirs ↔ (q = p ∨ q ∈ s.dirs) := decide_eq_decide.mp hd
      show decide (q ∈ t.dirs.filter (fun r => decide (r ≠ p))) = s.isDir q
      by_cases hqp : q = p
      · subst hqp
        have hnm : q ∉ t.dirs.filter (fun r => decide (r ≠ q)) := by
          simp [List.mem_filter]
        have hsf : s.isDir q = false := hv1
        simp [hnm, hsf]
      · rw [show s.isDir q = decide (q ∈ s.dirs) from rfl, decide_eq_decide]
        rw [List.mem_filter]
        constructor
        · rintro ⟨hq, _⟩
          rcases hd'.mp hq with h | h
          · exact absurd h hqp
          · exact h
        · intro hq
          exact ⟨hd'.mpr (Or.inr hq), by simp [hqp]⟩

lemma find?_id_cons_true {a : JEntry} {l : List JEntry} {idv : String} (h : a.id = idv) :
    (a :: l).find? (fun x => decide (x.id = idv)) = some a := by
  simp [List.find?, h]

lemma find?_id_cons_false {a : JEntry} {l : List JEntry} {idv : String} (h : a.id ≠ idv) :
    (a :: l).find? (fun x => decide (x.id = idv)) =
      l.find? (fun x => decide (x.id = idv)) := by
  simp [List.find?, h]

lemma find?_append_some {α : Type} {p : α → Bool} {l₁ l₂ : List α} {e : α}
    (h : l₁.find? p = some e) : (l₁ ++ l₂).find? p = some e := by
  induction l₁ with
  | nil => simp at h
  | cons a l ih =>
    by_cases hp : p a
    · rw [List.find?_cons_of_pos _ hp] at h
      rw [List.cons_append, List.find?_cons_of_pos _ hp]
      exact h
    · rw [List.find?_cons_of_neg _ hp] at h
      rw [List.cons_append, List.find?_cons_of_neg _ hp]
      exact ih h

lemma journalOf_nil_ops (ids : List String) : journalOf ids [] = [] := by
  cases ids <;> rfl

lemma mem_journalOf {ids : List String} {ops : List FsOp} {e : JEntry}
    (h : e ∈ journalOf ids ops) :
    e.canRollback = true ∧ e.rolledBack = false ∧ e.id ∈ ids := by
  induction ids generalizing ops with
  | nil => simp [journalOf] at h
  | cons i ids ih =>
    cases ops with
    | nil => simp [journalOf] at h
    | cons o ops =>
      simp only [journalOf, List.zipWith_cons_cons, List.mem_cons] at h
      rcases h with h | h
      · rw [h]; exact ⟨rfl, rfl, by simp [mkEntry]⟩
      · obtain ⟨h1, h2, h3⟩ := ih h
        exact ⟨h1, h2, by simp [h3]⟩

lemma find?_journalOf {ids : List String} {ops : List FsOp} (hnd : ids.Nodup) :
    ∀ e ∈ journalOf ids ops,
      (journalOf ids ops).find? (fun x => decide (x.id = e.id)) = some e := by
  induction ids generalizing ops with
  | nil => intro e he; simp [journalOf] at he
  | cons i ids ih =>
    cases ops with
    | nil => intro e he; simp [journalOf] at he
    | cons o ops =>
      intro e he
      simp only [journalOf, List.zipWith_cons_cons, List.mem_cons] at he
      rcases he with he | he
      · rw [he]
        show List.find? _ (mkEntry i o :: journalOf ids ops) = _
        rw [find?_id_cons_true rfl]
      · have hid : e.id ∈ ids := (mem_journalOf he).2.2
        have hne : (mkEntry i o).id ≠ e.id := by
          intro h
          rw [← h] at hid
          exact (List.nodup_cons.mp hnd).1 hid
        show List.find? _ (mkEntry i o :: journalOf ids ops) = _
        rw [find?_id_cons_false hne]
        exact ih (List.nodup_cons.mp hnd).2 e he

/-- `rollbackEntry` on a fresh reversible entry whose rollback action
succeeds: the action is applied and a synthetic `rollback-` record is
appended; the original entry line is not modified. -/
lemma rollbackEntry_mk {J : List JEntry} {i0 : String} {op : FsOp} {s s2 : FS}
    (hfind : J.find? (fun x => decide (x.id = i0)) = some (mkEntry i0 op))
    (hact : rollbackAction s op = some s2) :
    rollbackEntry J s i0 =
      (true, J ++ [{ mkEntry i0 op with id := "rollback-" ++ i0, rolledBack := true }], s2) := by
  unfold rollbackEntry
  rw [hfind]
  simp [mkEntry, hact]

lemma applyAll_cons (s : FS) (op : FsOp) (ops : List FsOp) :
    applyAll s (op :: ops) = applyAll (applyOp s op) ops := rfl

/-- Walking a validly recorded operation list in reverse and rolling each
entry back restores the initial filesystem; the journal only grows by
appended synthetic records. -/
lemma rollbackFold_restores :
    ∀ (ops : List FsOp) (ids : List String) (s0 t : FS) (J : List JEntry) (b : Bool),
      ValidSeq s0 ops → ids.length = ops.length →
      (∀ e ∈ journalOf ids ops, J.find? (fun x => decide (x.id = e.id)) = some e) →
      FS.Equiv t (applyAll s0 ops) →
      ∃ extra t2,
        (journalOf ids ops).reverse.foldl rollbackRunStep (b, J, t) = (b, J ++ extra, t2) ∧
        FS.Equiv t2 s0 := by
  intro ops
  induction ops with
  | nil =>
    intro ids s0 t J b _ _ _ ht
    refine ⟨[], t, ?_, ht⟩
    rw [journalOf_nil_ops]
    simp
  | cons op rest ih =>
    intro ids s0 t J b hv hlen hfind ht
    cases ids with
    | nil => simp at hlen
    | cons i0 ids' =>
      have hlen' : ids'.length = rest.length := by simpa using hlen
      have hJr : journalOf (i0 :: ids') (op :: rest) = mkEntry i0 op :: journalOf ids' rest := rfl
      obtain ⟨extra, t2, hfold, ht2⟩ :=
        ih ids' (applyOp s0 op) t J b hv.2 hlen'
          (fun e he => hfind e (by rw [hJr]; exact List.mem_cons_of_mem _ he))
          (by rw [← applyAll_cons]; exact ht)
      have hfe : J.find? (fun x => decide (x.id = i0)) = some (mkEntry i0 op) := by
        have := hfind (mkEntry i0 op) (by rw [hJr]; exact List.mem_cons_self _ _)
        simpa [mkEntry] using this
      obtain ⟨s2, hact, hs2⟩ := rollback_restores s0 t2 op hv.1 ht2
      have hfe' : (J ++ extra).find? (fun x => decide (x.id = i0)) = some (mkEntry i0 op) :=
        find?_append_some hfe
      have hstep : rollbackRunStep (b, J ++ extra, t2) (mkEntry i0 op) =
          (b, (J ++ extra) ++
              [{ mkEntry i0 op with id := "rollback-" ++ i0, rolledBack := true }], s2) := by
        simp only [rollbackRunStep]
        rw [show (mkEntry i0 op).id = i0 from rfl]
        rw [rollbackEntry_mk hfe' hact]
        simp
      refine ⟨extra ++ [{ mkEntry i0 op with id := "rollback-" ++ i0, rolledBack := true }],
        s2, ?_, hs2⟩
      rw [hJr, List.reverse_cons, List.foldl_append, hfold]
      rw [List.foldl_cons, hstep, List.foldl_nil, List.append_assoc]

lemma rollbackRun_targets (ids : List String) (ops : List FsOp)
    (hpre : ∀ id ∈ ids, strStartsWith id "rollback-" = false) :
    (journalOf ids ops).filter
        (fun e => e.canRollback && !e.rolledBack && !(strStartsWith e.id "rollback-"))
      = journalOf ids ops := by
  rw [List.filter_eq_self]
  intro e he
  obtain ⟨h1, h2, h3⟩ := mem_journalOf he
  simp [h1, h2, hpre e.id h3]

/-- C5: for any sequence of reversible filesystem operations (file create,
file modify, file delete, directory create) validly recorded in one run's
journal, each on a distinct path, `rollbackRun` walks the entries in
reverse insertion order, skips synthetic rollback records, succeeds, and
restores the filesystem to the exact state it had before the run began. -/
theorem C5_rollbackRun_restores (ops : List FsOp) (ids : List String) (s0 : FS)
    (hlen : ids.length = ops.length) (hnd : ids.Nodup)
    (hpre : ∀ id ∈ ids, strStartsWith id "rollback-" = false)
    (hv : ValidSeq s0 ops)
    (hdist : (ops.map FsOp.target).Nodup) :
    (rollbackRun (journalOf ids ops) (applyAll s0 ops)).1 = true ∧
    FS.Equiv (rollbackRun (journalOf ids ops) (applyAll s0 ops)).2.2 s0 := by
  obtain ⟨extra, t2, hfold, ht2⟩ :=
    rollbackFold_restores ops ids s0 (applyAll s0 ops) (journalOf ids ops) true hv hlen
      (find?_journalOf hnd) (FS.Equiv.refl _)
  unfold rollbackRun
  rw [rollbackRun_targets ids ops hpre, hfold]
  exact ⟨rfl, ht2⟩

/-- Witness for C5 at a concrete one-operation run. -/
theorem C5_witness :
    (["entry-0"] : List String).length = [FsOp.fileCreate ["a"] "hi"].length ∧
    (["entry-0"] : List String).Nodup ∧
    (∀ id ∈ (["entry-0"] : List String), strStartsWith id "rollback-" = false) ∧
    ValidSeq ⟨[], []⟩ [FsOp.fileCreate ["a"] "hi"] ∧
    ([FsOp.fileCreate ["a"] "hi"].map FsOp.target).Nodup ∧
    ((rollbackRun (journalOf ["entry-0"] [FsOp.fileCreate ["a"] "hi"])
        (applyAll ⟨[], []⟩ [FsOp.fileCreate ["a"] "hi"])).1 = true ∧
      FS.Equiv (rollbackRun (journalOf ["entry-0"] [FsOp.fileCreate ["a"] "hi"])
        (applyAll ⟨[], []⟩ [FsOp.fileCreate ["a"] "hi"])).2.2 ⟨[], []⟩) :=
  ⟨rfl, by decide, by decide, ⟨rfl, trivial⟩, by decide,
    C5_rollbackRun_restores [FsOp.fileCreate ["a"] "hi"] ["entry-0"] ⟨[], []⟩ rfl
      (by decide) (by decide) ⟨rfl, trivial⟩ (by decide)⟩

/-- The journal after recording a single file creation, and the filesystem
after that creation ran on an empty filesystem. -/
def c4Journal : List JEntry := [mkEntry "entry-0" (FsOp.fileCreate ["a"] "hi")]

def c4FS : FS := applyOp ⟨[], []⟩ (FsOp.fileCreate ["a"] "hi")

def c4First : Bool × List JEntry × FS := rollbackEntry c4Journal c4FS "entry-0"

def c4Second : Bool × List JEntry × FS := rollbackEntry c4First.2.1 c4First.2.2 "entry-0"

/-- C4: evaluating `rollbackEntry` twice on the same `file_create` entry.
The first call succeeds, but the persisted original entry still carries
`rolledBack = false` (only the in-memory copy was marked and only the
synthetic record was appended), so the second call finds the entry
unmarked and succeeds again instead of returning the failure code the
claim and the spec require. -/
theorem C4_bug_eval :
    c4First.1 = true ∧
    (c4First.2.1.find? (fun e => decide (e.id = "entry-0"))).map JEntry.rolledBack =
      some false ∧
    c4Second.1 = true := by
  decide

/-! ## Retry (src/core/retry.ts)

`withRetry` wraps the plan runner's attempt closure (pre-check → dispatch →
post-validate).  A pre-check denial throws an `Error` with `code = DENIED`
(src/guardrails/hooks.ts).  The closure is modelled as an oracle from the
invocation index to its outcome; sleeps affect timing only and are
omitted. -/

/-- A JS error value with its `code` property. -/
structure JsError where
  message : String
  code : Option String := none
  deriving DecidableEq, Repr

/-- The `while` loop of `withRetry` (src/core/retry.ts).  State: the
`attempt` counter and `lastErr`.  The loop body catches every error alike —
it never inspects `code` — so there is no denial short-circuit.  `fuel`
bounds the recursion and equals the remaining loop iterations
(`attempts - attempt` at entry), so it never runs out before the loop
exits on its own condition.  Returns the outcome (`.error lastErr` models
`throw lastErr`) and the number of closure invocations. -/
def withRetryLoop (fn : Nat → Except JsError α) (attempts : Nat) :
    Nat → Nat → Option JsError → Except (Option JsError) α × Nat
  | 0, attempt, lastErr => (.error lastErr, attempt)
  | fuel + 1, attempt, lastErr =>
    if attempt < attempts then
      match fn attempt with
      | .ok v => (.ok v, attempt + 1)
      | .error e =>
        if attempt + 1 ≥ attempts then (.error (some e), attempt + 1)
        else withRetryLoop fn attempts fuel (attempt + 1) (some e)
    else (.error lastErr, attempt)

/-- `withRetry` (src/core/retry.ts): run the closure up to `attempts`
times, re-throwing the last error after the final failure. -/
def withRetry (fn : Nat → Except JsError α) (attempts : Nat) :
    Except (Option JsError) α × Nat :=
  withRetryLoop fn attempts attempts 0 none

/-- The always-denied closure: every invocation fails with the pre-check
denial error thrown by `preCheck` (src/guardrails/hooks.ts). -/
def deniedClosure : Nat → Except JsError Unit :=
  fun _ => .error ⟨"Denied: path_outside_sandbox", some "DENIED"⟩

/-- C7 counterexample: with `attempts = 2`, a closure that is denied on
every invocation is invoked twice, not once: `withRetry` never inspects the
error code, so a `DENIED` failure is retried like any other error. -/
theorem C7_counterexample :
    (withRetry deniedClosure 2).2 = 2 ∧
    (withRetry deniedClosure 2).1 =
      .error (some ⟨"Denied: path_outside_sandbox", some "DENIED"⟩) :=
  ⟨rfl, rfl⟩

lemma withRetryLoop_allfail (e : Nat → JsError) (attempts : Nat) :
    ∀ fuel attempt lastErr, fuel + attempt = attempts → attempt < attempts →
      withRetryLoop (fun k => (.error (e k) : Except JsError Unit)) attempts fuel attempt lastErr
        = (.error (some (e (attempts - 1))), attempts) := by
  intro fuel
  induction fuel with
  | zero => intro attempt lastErr hf hlt; omega
  | succ m ih =>
    intro attempt lastErr hf hlt
    rw [withRetryLoop, if_pos hlt]
    by_cases hla : attempt + 1 ≥ attempts
    · have h2 : attempt + 1 = attempts := by omega
      have h1 : attempts - 1 = attempt := by omega
      simp only [h2, h1, ge_iff_le, le_refl, if_true]
    · have hlt' : attempt + 1 < attempts := by omega
      have hf' : m + (attempt + 1) = attempts := by omega
      simp only [if_neg hla]
      exact ih (attempt + 1) (some (e attempt)) hf' hlt'

/-- C7 amended: a pre-check denial does not short-circuit the retry loop.
When every invocation of the attempt closure fails (in particular with a
`DENIED` error), the closure is invoked exactly `attempts` times and the
error of the final attempt is re-thrown. -/
theorem C7_amended (e : Nat → JsError) (attempts : Nat) (h1 : 1 ≤ attempts) :
    (withRetry (fun k => (.error (e k) : Except JsError Unit)) attempts).2 = attempts ∧
    (withRetry (fun k => (.error (e k) : Except JsError Unit)) attempts).1 =
      .error (some (e (attempts - 1))) := by
  unfold withRetry
  rw [withRetryLoop_allfail e attempts attempts 0 none (by omega) (by omega)]
  exact ⟨rfl, rfl⟩

/-- Witness for C7_amended: two denied attempts. -/
theorem C7_amended_witness :
    1 ≤ 2 ∧
    ((withRetry (fun k =>
        (.error (⟨"Denied: path_outside_sandbox", some "DENIED"⟩ : JsError) :
          Except JsError Unit)) 2).2 = 2 ∧
      (withRetry (fun k =>
        (.error (⟨"Denied: path_outside_sandbox", some "DENIED"⟩ : JsError) :
          Except JsError Unit)) 2).1 =
        .error (some ⟨"Denied: path_outside_sandbox", some "DENIED"⟩)) :=
  ⟨by omega,
    C7_amended (fun _ => ⟨"Denied: path_outside_sandbox", some "DENIED"⟩) 2 (by omega)⟩

/-! ## Plan runner topological sort (src/core/orchestrator.ts)

`topoSort` implements Kahn's algorithm over a `Map` keyed by step id and
falls back to the input order only when the produced order is empty
(`return out.length ? out : steps`).  `runSteps` then executes
`topoSort(steps)` in order, stopping at the first terminal failure, so the
executed sequence is a prefix of the returned order.  JS `Map` semantics
collapse duplicate ids (last `set` wins); the embedding is stated for the
unique-id inputs the spec's data-model invariant requires, where `byId.get`
is `find?` and map iteration order is input order. -/

/-- A plan step as `topoSort` reads it. -/
structure Step where
  id : String
  deps : List String
  deriving DecidableEq, Repr

/-- The ids of a list of steps. -/
def idsOf (l : List Step) : List String := l.map Step.id

/-- The in-degree map after initialisation: each step's id maps to the
length of its dependency list (counting duplicates); absent keys read 0. -/
def initInd (steps : List Step) : String → Int :=
  fun idv =>
    match steps.find? (fun s => decide (s.id = idv)) with
    | some s => (s.deps.length : Int)
    | none => 0

/-- The initial queue: the steps whose in-degree is zero, in map-iteration
order (= input order for unique ids). -/
def initQ (steps : List Step) : List Step :=
  steps.filter (fun s => s.deps.isEmpty)

/-- Decrement the in-degree of one dependent step and push it when the new
value is exactly zero. -/
def decrStep (acc : (String → Int) × List Step) (s : Step) : (String → Int) × List Step :=
  let nd := acc.1 s.id - 1
  (fun idv => if idv = s.id then nd else acc.1 idv,
   if nd = 0 then acc.2 ++ [s] else acc.2)

/-- Processing one popped node `n`: the `steps.forEach` body, which visits
every step whose dependency list contains `n.id` once, in input order. -/
def processPop (steps : List Step) (n : Step) (ind : String → Int) :
    (String → Int) × List Step :=
  (steps.filter (fun s => decide (n.id ∈ s.deps))).foldl decrStep (ind, [])

/-- The `while(q.length)` loop of `topoSort`.  `fuel` dominates the number
of remaining loop iterations; the caller passes enough that the zero-fuel
branch coincides with the empty-queue exit. -/
def kahnLoop (steps : List Step) :
    Nat → List Step → (String → Int) → List Step → List Step
  | 0, _, _, out => out
  | fuel + 1, q, ind, out =>
    match q with
    | [] => out
    | n :: q' =>
      let pr := processPop steps n ind
      kahnLoop steps fuel (q' ++ pr.2) pr.1 (out ++ [n])

/-- `topoSort` (src/core/orchestrator.ts lines 8-15): Kahn's algorithm,
falling back to the given order only when the produced order is empty. -/
def topoSort (steps : List Step) : List Step :=
  let out := kahnLoop steps
    (steps.length + (steps.map (fun s => s.deps.length)).sum + 1)
    (initQ steps) (initInd steps) []
  if out.isEmpty then steps else out

/-- A dependency graph is acyclic when every nonempty collection of its
steps contains a step none of whose dependencies lie in the collection
(every nonempty subgraph has a source); for finite graphs this is the usual
no-cycle condition. -/
def Acyclic (steps : List Step) : Prop :=
  ∀ R : List Step, (∀ s ∈ R, s ∈ steps) → R ≠ [] →
    ∃ y ∈ R, ∀ x ∈ R, x.id ∉ y.deps

def stepA : Step := ⟨"a", []⟩

def stepB : Step := ⟨"b", ["c"]⟩

def stepC : Step := ⟨"c", ["b"]⟩

/-- C6 counterexample: the plan `[a, b⇄c]` has a cycle, yet `topoSort` does
not fall back to the input order: Kahn's queue starts nonempty (step `a`),
so `out = [a]` is returned and the cycle members `b`, `c` are dropped and
never executed, contradicting the claim that on a cyclic graph all steps
are executed in the original input order. -/
theorem C6_counterexample :
    topoSort [stepA, stepB, stepC] = [stepA] ∧
    ¬ Acyclic [stepA, stepB, stepC] ∧
    topoSort [stepA, stepB, stepC] ≠ [stepA, stepB, stepC] ∧
    stepB ∉ topoSort [stepA, stepB, stepC] := by
  refine ⟨by decide, ?_, by decide, by decide⟩
  intro hac
  obtain ⟨y, hy, hsrc⟩ := hac [stepB, stepC] (by intro s hs; simp at hs; rcases hs with h | h <;> simp [h]) (by simp)
  have hb := hsrc stepB (by simp)
  have hc := hsrc stepC (by simp)
  simp only [List.mem_cons, List.not_mem_nil, or_false] at hy
  rcases hy with hy | hy <;> rw [hy] at hb hc
  · exact hc (by decide)
  · exact hb (by decide)

lemma find?_sid_cons_true {a : Step} {l : List Step} {idv : String} (h : a.id = idv) :
    (a :: l).find? (fun t => decide (t.id = idv)) = some a := by
  simp [List.find?, h]

lemma find?_sid_cons_false {a : Step} {l : List Step} {idv : String} (h : a.id ≠ idv) :
    (a :: l).find? (fun t => decide (t.id = idv)) =
      l.find? (fun t => decide (t.id = idv)) := by
  simp [List.find?, h]

lemma find?_step_id {steps : List Step} (hids : (idsOf steps).Nodup) {s : Step}
    (hs : s ∈ steps) : steps.find? (fun t => decide (t.id = s.id)) = some s := by
  induction steps with
  | nil => simp at hs
  | cons a l ih =>
    have hnd := hids
    simp only [idsOf, List.map_cons, List.nodup_cons] at hnd
    rcases List.mem_cons.mp hs with h | h
    · rw [h]
      exact find?_sid_cons_true rfl
    · have hne : a.id ≠ s.id := by
        intro hEq
        exact hnd.1 (hEq ▸ List.mem_map_of_mem Step.id h)
      rw [find?_sid_cons_false hne]
      exact ih hnd.2 h

lemma initInd_eq {steps : List Step} (hids : (idsOf steps).Nodup) {s : Step}
    (hs : s ∈ steps) : initInd steps s.id = (s.deps.length : Int) := by
  rw [initInd, find?_step_id hids hs]

lemma id_inj {steps : List Step} (hids : (idsOf steps).Nodup) {u t : Step}
    (hu : u ∈ steps) (ht : t ∈ steps) (h : u.id = t.id) : u = t :=
  List.inj_on_of_nodup_map hids hu ht h

lemma length_filter_split {α : Type} (l : List α) (p q : α → Bool) :
    (l.filter p).length =
      (l.filter (fun a => p a && q a)).length + (l.filter (fun a => p a && !q a)).length := by
  induction l with
  | nil => rfl
  | cons a l ih =>
    by_cases hp : p a
    · by_cases hq : q a <;> simp [List.filter_cons, hp, hq, ih] <;> omega
    · simp [List.filter_cons, hp, ih]

lemma length_filter_partition {α : Type} (l : List α) (q : α → Bool) :
    l.length = (l.filter q).length + (l.filter (fun a => !q a)).length := by
  induction l with
  | nil => rfl
  | cons a l ih =>
    by_cases hq : q a <;> simp [List.filter_cons, hq, ih] <;> omega

lemma filter_mem_sublist {l sub : List Step} (hnd : l.Nodup) (hsub : sub.Sublist l) :
    l.filter (fun s => decide (s ∈ sub)) = sub := by
  induction hsub with
  | slnil => rfl
  | cons a hs ih =>
    rename_i sub' l'
    have hnd' := (List.nodup_cons.mp hnd).2
    have hna : a ∉ l' := (List.nodup_cons.mp hnd).1
    have hnas : a ∉ sub' := fun h => hna (hs.subset h)
    rw [List.filter_cons, if_neg (by simpa using hnas)]
    exact ih hnd'
  | cons₂ a hs ih =>
    rename_i sub' l'
    have hnd' := (List.nodup_cons.mp hnd).2
    have hna : a ∉ l' := (List.nodup_cons.mp hnd).1
    rw [List.filter_cons, if_pos (by simp)]
    congr 1
    rw [show l'.filter (fun s => decide (s ∈ a :: sub')) = l'.filter (fun s => decide (s ∈ sub')) from ?_]
    · exact ih hnd'
    · apply List.filter_congr
      intro x hx
      have hxa : x ≠ a := fun h => hna (h ▸ hx)
      simp [hxa]

lemma filter_length_eq_of_subset {popped ds : List String}
    (hnd : popped.Nodup) (hds : ds.Nodup) (hsub : ∀ d ∈ ds, d ∈ popped) :
    (popped.filter (fun d => decide (d ∈ ds))).length = ds.length := by
  have hfn : (popped.filter (fun d => decide (d ∈ ds))).Nodup := hnd.filter _
  have hperm : (popped.filter (fun d => decide (d ∈ ds))).Perm ds := by
    rw [List.perm_ext_iff_of_nodup hfn hds]
    intro a
    simp only [List.mem_filter, decide_eq_true_eq]
    exact ⟨fun h => h.2, fun h => ⟨hsub a h, h⟩⟩
  exact hperm.length_eq

lemma all_mem_of_filter_length_eq {popped ds : List String} (hnd : popped.Nodup)
    (h : (popped.filter (fun d => decide (d ∈ ds))).length = ds.length) :
    (∀ d ∈ ds, d ∈ popped) ∧ ds.Nodup := by
  set F := popped.filter (fun d => decide (d ∈ ds)) with hF
  have hfn : F.Nodup := hnd.filter _
  have hFsub : F.toFinset ⊆ ds.toFinset := by
    intro a ha
    rw [List.mem_toFinset] at ha ⊢
    rw [hF, List.mem_filter, decide_eq_true_eq] at ha
    exact ha.2
  have hcardF : F.toFinset.card = F.length := List.toFinset_card_of_nodup hfn
  have hcardDs : ds.toFinset.card ≤ ds.length := ds.toFinset_card_le
  have hchain : ds.length ≤ ds.toFinset.card := by
    calc ds.length = F.length := h.symm
    _ = F.toFinset.card := hcardF.symm
    _ ≤ ds.toFinset.card := Finset.card_le_card hFsub
  have hdseq : ds.toFinset.card = ds.length := le_antisymm hcardDs hchain
  have hdsnodup : ds.Nodup := by
    have h1 : ds.dedup.length = ds.length := by
      rw [← List.card_toFinset]
      exact hdseq
    have h2 : ds.dedup = ds := (List.dedup_sublist ds).eq_of_length h1
    rw [← h2]
    exact ds.nodup_dedup
  have hFeq : F.toFinset = ds.toFinset := by
    apply Finset.eq_of_subset_of_card_le hFsub
    rw [hcardF, h, hdseq]
  refine ⟨?_, hdsnodup⟩
  intro d hd
  have : d ∈ F.toFinset := by
    rw [hFeq, List.mem_toFinset]
    exact hd
  rw [List.mem_toFinset, hF, List.mem_filter] at this
  exact this.1

lemma foldDecr_char :
    ∀ (L : List Step) (ind : String → Int) (q0 : List Step), (idsOf L).Nodup →
      (∀ idv, (L.foldl decrStep (ind, q0)).1 idv =
        if idv ∈ idsOf L then ind idv - 1 else ind idv) ∧
      (L.foldl decrStep (ind, q0)).2 =
        q0 ++ L.filter (fun s => decide (ind s.id - 1 = 0)) := by
  intro L
  induction L with
  | nil =>
    intro ind q0 _
    exact ⟨fun idv => by simp [idsOf], by simp⟩
  | cons s L ih =>
    intro ind q0 hnd
    simp only [idsOf, List.map_cons, List.nodup_cons] at hnd
    have hsid : s.id ∉ idsOf L := hnd.1
    rw [List.foldl_cons]
    have hds : decrStep (ind, q0) s =
        (fun idv => if idv = s.id then ind s.id - 1 else ind idv,
         if ind s.id - 1 = 0 then q0 ++ [s] else q0) := rfl
    rw [hds]
    obtain ⟨ihf, ihq⟩ := ih (fun idv => if idv = s.id then ind s.id - 1 else ind idv)
      (if ind s.id - 1 = 0 then q0 ++ [s] else q0) hnd.2
    constructor
    · intro idv
      rw [ihf idv]
      have hcons : idsOf (s :: L) = s.id :: idsOf L := rfl
      by_cases hL : idv ∈ idsOf L
      · have hne : idv ≠ s.id := fun h => hsid (h ▸ hL)
        rw [if_pos hL, if_neg hne, if_pos (by rw [hcons]; exact List.mem_cons_of_mem _ hL)]
      · rw [if_neg hL]
        by_cases hse : idv = s.id
        · rw [if_pos hse, if_pos (by rw [hcons, hse]; exact List.mem_cons_self _ _), hse]
        · rw [if_neg hse, if_neg (by rw [hcons]; simp [List.mem_cons, hse, hL])]
    · rw [ihq]
      have hcongr : L.filter (fun t => decide ((if t.id = s.id then ind s.id - 1 else ind t.id) - 1 = 0))
          = L.filter (fun t => decide (ind t.id - 1 = 0)) := by
        apply List.filter_congr
        intro t htL
        have : t.id ≠ s.id := fun h => hsid (h ▸ List.mem_map_of_mem Step.id htL)
        simp [this]
      rw [hcongr]
      by_cases hz : ind s.id - 1 = 0
      · rw [if_pos hz, List.filter_cons, if_pos (by simpa using hz), List.append_assoc]
        rfl
      · rw [if_neg hz, List.filter_cons, if_neg (by simpa using hz)]

/-- The dependents of `n` among the steps. -/
def dependents (steps : List Step) (n : Step) : List Step :=
  steps.filter (fun s => decide (n.id ∈ s.deps))

lemma idsOf_sublist {l₁ l₂ : List Step} (h : l₁.Sublist l₂) : (idsOf l₁).Sublist (idsOf l₂) :=
  h.map Step.id

lemma dependents_sublist (steps : List Step) (n : Step) : (dependents steps n).Sublist steps :=
  List.filter_sublist steps

lemma processPop_fst {steps : List Step} (hids : (idsOf steps).Nodup) (n : Step)
    (ind : String → Int) :
    ∀ idv, (processPop steps n ind).1 idv =
      if idv ∈ idsOf (dependents steps n) then ind idv - 1 else ind idv := by
  have hnd : (idsOf (dependents steps n)).Nodup :=
    hids.sublist (idsOf_sublist (dependents_sublist steps n))
  exact (foldDecr_char (dependents steps n) ind [] hnd).1

lemma processPop_snd {steps : List Step} (hids : (idsOf steps).Nodup) (n : Step)
    (ind : String → Int) :
    (processPop steps n ind).2 =
      (dependents steps n).filter (fun s => decide (ind s.id - 1 = 0)) := by
  have hnd : (idsOf (dependents steps n)).Nodup :=
    hids.sublist (idsOf_sublist (dependents_sublist steps n))
  have := (foldDecr_char (dependents steps n) ind [] hnd).2
  simpa using this

lemma id_mem_idsOf_filter {steps : List Step} (hids : (idsOf steps).Nodup)
    {t : Step} (ht : t ∈ steps) (P : Step → Bool) :
    t.id ∈ idsOf (steps.filter P) ↔ P t = true := by
  constructor
  · intro h
    simp only [idsOf, List.mem_map] at h
    obtain ⟨u, hu, huid⟩ := h
    rw [List.mem_filter] at hu
    have : u = t := id_inj hids hu.1 ht huid
    rw [← this]
    exact hu.2
  · intro h
    exact List.mem_map_of_mem Step.id (List.mem_filter.mpr ⟨ht, h⟩)

/-- Number of already-popped ids that occur in `s`'s dependency list. -/
def depCount (out : List Step) (s : Step) : Nat :=
  ((idsOf out).filter (fun d => decide (d ∈ s.deps))).length

lemma idsOf_append (l₁ l₂ : List Step) : idsOf (l₁ ++ l₂) = idsOf l₁ ++ idsOf l₂ :=
  List.map_append Step.id l₁ l₂

lemma depCount_append_one (out : List Step) (n s : Step) :
    depCount (out ++ [n]) s = depCount out s + (if n.id ∈ s.deps then 1 else 0) := by
  unfold depCount
  rw [idsOf_append, List.filter_append, List.length_append]
  congr 1
  show (List.filter (fun d => decide (d ∈ s.deps)) [n.id]).length = _
  by_cases h : n.id ∈ s.deps <;> simp [h]

/-- The loop invariant of Kahn's algorithm in `topoSort`, for a plan with
unique step ids: `out` is the popped order, `q` the pending queue, `ind`
the current in-degree map. -/
structure KState (steps q out : List Step) (ind : String → Int) : Prop where
  outSub : ∀ s ∈ out, s ∈ steps
  qSub : ∀ s ∈ q, s ∈ steps
  nodupIds : (idsOf (out ++ q)).Nodup
  indChar : ∀ s ∈ steps, ind s.id = (s.deps.length : Int) - depCount out s
  memChar : ∀ s ∈ steps, ((s ∈ out ∨ s ∈ q) ↔ depCount out s = s.deps.length)
  ordered : out.Pairwise (fun a b => b.id ∉ a.deps)
  qDeps : ∀ a ∈ q, ∀ d ∈ a.deps, d ∈ idsOf out
  outDeps : ∀ a ∈ out, ∀ d ∈ a.deps, d ∈ idsOf out
  depsNodup : ∀ a, a ∈ out ∨ a ∈ q → a.deps.Nodup

lemma KState.nodupOut {steps q out : List Step} {ind : String → Int}
    (K : KState steps q out ind) : (idsOf out).Nodup := by
  have := K.nodupIds
  rw [idsOf_append, List.nodup_append] at this
  exact this.1

lemma KState.nodupQ {steps q out : List Step} {ind : String → Int}
    (K : KState steps q out ind) : (idsOf q).Nodup := by
  have := K.nodupIds
  rw [idsOf_append, List.nodup_append] at this
  exact this.2.1

lemma KState.disjOQ {steps q out : List Step} {ind : String → Int}
    (K : KState steps q out ind) : ∀ a ∈ idsOf out, a ∉ idsOf q := by
  have := K.nodupIds
  rw [idsOf_append, List.nodup_append] at this
  exact this.2.2

/-- One iteration of the Kahn loop preserves the invariant. -/
lemma KState.pop {steps : List Step} (hids : (idsOf steps).Nodup)
    {n : Step} {q out : List Step} {ind : String → Int}
    (K : KState steps (n :: q) out ind) :
    KState steps (q ++ (processPop steps n ind).2) (out ++ [n])
      (processPop steps n ind).1 := by
  have hpushedEq : (processPop steps n ind).2 =
      (dependents steps n).filter (fun s => decide (ind s.id - 1 = 0)) :=
    processPop_snd hids n ind
  have hindEq := processPop_fst hids n ind
  have hnSteps : n ∈ steps := K.qSub n (List.mem_cons_self n q)
  have hnNotOut : n.id ∉ idsOf out := fun h =>
    K.disjOQ n.id h (List.mem_map_of_mem Step.id (List.mem_cons_self n q))
  have hpushedSub : (processPop steps n ind).2.Sublist steps := by
    rw [hpushedEq]
    exact (List.filter_sublist _).trans (dependents_sublist steps n)
  have hpushedMem : ∀ s, s ∈ (processPop steps n ind).2 ↔
      (s ∈ steps ∧ n.id ∈ s.deps ∧ ind s.id - 1 = 0) := by
    intro s
    rw [hpushedEq, List.mem_filter, dependents, List.mem_filter]
    simp [and_assoc]
  have hpushedCount : ∀ s ∈ (processPop steps n ind).2,
      depCount out s + 1 = s.deps.length ∧ n.id ∈ s.deps := by
    intro s hs
    obtain ⟨hsS, hdep, hz⟩ := (hpushedMem s).mp hs
    have hic := K.indChar s hsS
    rw [hic] at hz
    constructor
    · omega
    · exact hdep
  have hpushedNotIn : ∀ s ∈ (processPop steps n ind).2, ¬(s ∈ out ∨ s ∈ n :: q) := by
    intro s hs hmem
    obtain ⟨hsS, _, _⟩ := (hpushedMem s).mp hs
    have hcl := (K.memChar s hsS).mp hmem
    have := (hpushedCount s hs).1
    omega
  have hOldFull : ∀ s ∈ steps, (s ∈ out ∨ s ∈ n :: q) →
      (∀ d ∈ s.deps, d ∈ idsOf out) ∧ s.deps.Nodup := by
    intro s hsS hmem
    exact all_mem_of_filter_length_eq K.nodupOut ((K.memChar s hsS).mp hmem)
  have hOldNotDep : ∀ s ∈ steps, (s ∈ out ∨ s ∈ n :: q) → n.id ∉ s.deps := by
    intro s hsS hmem hdep
    exact hnNotOut ((hOldFull s hsS hmem).1 n.id hdep)
  have hrearr : (out ++ [n]) ++ (q ++ (processPop steps n ind).2)
      = (out ++ n :: q) ++ (processPop steps n ind).2 := by
    simp
  have hdepIff : ∀ s ∈ steps,
      (s.id ∈ idsOf (dependents steps n) ↔ n.id ∈ s.deps) := by
    intro s hsS
    show s.id ∈ idsOf (steps.filter (fun t => decide (n.id ∈ t.deps))) ↔ _
    rw [id_mem_idsOf_filter hids hsS]
    simp
  have hindDep : ∀ s ∈ steps, n.id ∈ s.deps →
      (processPop steps n ind).1 s.id = ind s.id - 1 := by
    intro s hsS hdep
    rw [hindEq s.id, if_pos ((hdepIff s hsS).mpr hdep)]
  have hindNoDep : ∀ s ∈ steps, n.id ∉ s.deps →
      (processPop steps n ind).1 s.id = ind s.id := by
    intro s hsS hdep
    rw [hindEq s.id, if_neg (fun h => hdep ((hdepIff s hsS).mp h))]
  have hnewNodup : (idsOf ((out ++ [n]) ++ (q ++ (processPop steps n ind).2))).Nodup := by
    rw [hrearr, idsOf_append, List.nodup_append]
    refine ⟨K.nodupIds, hids.sublist (idsOf_sublist hpushedSub), ?_⟩
    intro a ha hb
    simp only [idsOf, List.mem_map] at ha hb
    obtain ⟨u, hu, hua⟩ := ha
    obtain ⟨v, hv, hva⟩ := hb
    have huS : u ∈ steps := by
      rcases List.mem_append.mp hu with h | h
      · exact K.outSub u h
      · exact K.qSub u h
    have hvS : v ∈ steps := ((hpushedMem v).mp hv).1
    have huv : v = u := id_inj hids hvS huS (by rw [hva, hua])
    apply hpushedNotIn v hv
    rw [huv]
    rcases List.mem_append.mp hu with h | h
    · exact Or.inl h
    · exact Or.inr h
  refine ⟨?_, ?_, hnewNodup, ?_, ?_, ?_, ?_, ?_, ?_⟩
  · intro s hs
    rcases List.mem_append.mp hs with h | h
    · exact K.outSub s h
    · rw [List.mem_singleton.mp h]; exact hnSteps
  · intro s hs
    rcases List.mem_append.mp hs with h | h
    · exact K.qSub s (List.mem_cons_of_mem n h)
    · exact ((hpushedMem s).mp h).1
  · intro s hsS
    rw [depCount_append_one]
    by_cases hdep : n.id ∈ s.deps
    · rw [hindDep s hsS hdep, K.indChar s hsS, if_pos hdep]
      push_cast
      ring
    · rw [hindNoDep s hsS hdep, K.indChar s hsS, if_neg hdep]
      push_cast
      ring
  · intro s hsS
    rw [depCount_append_one]
    have hmemSplit : (s ∈ out ++ [n] ∨ s ∈ q ++ (processPop steps n ind).2) ↔
        ((s ∈ out ∨ s ∈ n :: q) ∨ s ∈ (processPop steps n ind).2) := by
      simp only [List.mem_append, List.mem_singleton, List.mem_cons]
      tauto
    rw [hmemSplit]
    by_cases hdep : n.id ∈ s.deps
    · rw [if_pos hdep]
      have hOld : ¬(s ∈ out ∨ s ∈ n :: q) := fun hm => hOldNotDep s hsS hm hdep
      constructor
      · intro hL
        rcases hL with hL | hL
        · exact absurd hL hOld
        · have := (hpushedCount s hL).1
          omega
      · intro hR
        refine Or.inr ((hpushedMem s).mpr ⟨hsS, hdep, ?_⟩)
        rw [K.indChar s hsS]
        omega
    · rw [if_neg hdep]
      constructor
      · intro hL
        rcases hL with hL | hL
        · have := (K.memChar s hsS).mp hL
          omega
        · exact absurd hdep (not_not_intro ((hpushedMem s).mp hL).2.1)
      · intro hR
        exact Or.inl ((K.memChar s hsS).mpr (by omega))
  · rw [List.pairwise_append]
    refine ⟨K.ordered, List.pairwise_singleton _ _, ?_⟩
    intro a ha b hb
    rw [List.mem_singleton.mp hb]
    intro hdep
    exact hnNotOut (K.outDeps a ha n.id hdep)
  · intro a ha d hd
    rw [idsOf_append]
    rcases List.mem_append.mp ha with h | h
    · exact List.mem_append_left _ (K.qDeps a (List.mem_cons_of_mem n h) d hd)
    · have hsS := ((hpushedMem a).mp h).1
      have hcnt : depCount (out ++ [n]) a = a.deps.length := by
        rw [depCount_append_one, if_pos (hpushedCount a h).2]
        exact (hpushedCount a h).1
      have hnodup' : (idsOf (out ++ [n])).Nodup := by
        rw [idsOf_append]
        rw [List.nodup_append]
        exact ⟨K.nodupOut, List.nodup_singleton _, fun x hx => by
          simp only [idsOf, List.map_cons, List.map_nil, List.mem_singleton]
          intro hxn
          exact hnNotOut (hxn ▸ hx)⟩
      have := (all_mem_of_filter_length_eq hnodup' hcnt).1 d hd
      rw [idsOf_append] at this
      exact this
  · intro a ha d hd
    rw [idsOf_append]
    rcases List.mem_append.mp ha with h | h
    · exact List.mem_append_left _ (K.outDeps a h d hd)
    · rw [List.mem_singleton.mp h] at hd
      exact List.mem_append_left _ (K.qDeps n (List.mem_cons_self n q) d hd)
  · intro a ha
    rcases ha with ha | ha
    · rcases List.mem_append.mp ha with h | h
      · exact K.depsNodup a (Or.inl h)
      · rw [List.mem_singleton.mp h]
        exact K.depsNodup n (Or.inr (List.mem_cons_self n q))
    · rcases List.mem_append.mp ha with h | h
      · exact K.depsNodup a (Or.inr (List.mem_cons_of_mem n h))
      · have hsS := ((hpushedMem a).mp h).1
        have hcnt : depCount (out ++ [n]) a = a.deps.length := by
          rw [depCount_append_one, if_pos (hpushedCount a h).2]
          exact (hpushedCount a h).1
        have hnodup' : (idsOf (out ++ [n])).Nodup := by
          rw [idsOf_append, List.nodup_append]
          exact ⟨K.nodupOut, List.nodup_singleton _, fun x hx => by
            simp only [idsOf, List.map_cons, List.map_nil, List.mem_singleton]
            intro hxn
            exact hnNotOut (hxn ▸ hx)⟩
        exact (all_mem_of_filter_length_eq hnodup' hcnt).2

lemma KState.init (steps : List Step) (hids : (idsOf steps).Nodup) :
    KState steps (initQ steps) [] (initInd steps) := by
  have hmemQ : ∀ s ∈ steps, (s ∈ initQ steps ↔ s.deps = []) := by
    intro s hsS
    rw [initQ, List.mem_filter]
    simp [List.isEmpty_iff, hsS]
  refine ⟨?_, ?_, ?_, ?_, ?_, ?_, ?_, ?_, ?_⟩
  · intro s hs; simp at hs
  · intro s hs; exact (List.mem_filter.mp hs).1
  · show (idsOf ([] ++ initQ steps)).Nodup
    rw [List.nil_append]
    exact hids.sublist (idsOf_sublist (List.filter_sublist steps))
  · intro s hsS
    rw [initInd_eq hids hsS]
    have h0 : depCount [] s = 0 := rfl
    rw [h0]
    simp
  · intro s hsS
    have h0 : depCount [] s = 0 := rfl
    rw [h0]
    constructor
    · rintro (h | h)
      · simp at h
      · rw [(hmemQ s hsS).mp h]
        rfl
    · intro h
      exact Or.inr ((hmemQ s hsS).mpr (List.length_eq_zero.mp h.symm))
  · exact List.Pairwise.nil
  · intro a ha d hd
    rw [(hmemQ a ((List.mem_filter.mp ha).1)).mp ha] at hd
    simp at hd
  · intro a ha; simp at ha
  · intro a ha
    rcases ha with h | h
    · simp at h
    · rw [(hmemQ a ((List.mem_filter.mp h).1)).mp h]
      exact List.nodup_nil

lemma kahnLoop_nil_q (steps : List Step) :
    ∀ fuel ind out, kahnLoop steps fuel [] ind out = out := by
  intro fuel
  cases fuel <;> intro ind out <;> rfl

/-- Every state the loop can reach keeps `out` a valid partial order:
members of the plan, no duplicates, dependencies before dependents, and the
previous `out` as a prefix of the result. -/
lemma kahnLoop_sound {steps : List Step} (hids : (idsOf steps).Nodup) :
    ∀ fuel q out ind, KState steps q out ind →
      (∀ s ∈ kahnLoop steps fuel q ind out, s ∈ steps) ∧
      (idsOf (kahnLoop steps fuel q ind out)).Nodup ∧
      (kahnLoop steps fuel q ind out).Pairwise (fun a b => b.id ∉ a.deps) ∧
      out <+: kahnLoop steps fuel q ind out := by
  intro fuel
  induction fuel with
  | zero =>
    intro q out ind K
    exact ⟨K.outSub, K.nodupOut, K.ordered, List.prefix_rfl⟩
  | succ m ih =>
    intro q out ind K
    cases q with
    | nil => exact ⟨K.outSub, K.nodupOut, K.ordered, List.prefix_rfl⟩
    | cons n q' =>
      have hstep : kahnLoop steps (m + 1) (n :: q') ind out =
          kahnLoop steps m (q' ++ (processPop steps n ind).2)
            (processPop steps n ind).1 (out ++ [n]) := rfl
      rw [hstep]
      obtain ⟨h1, h2, h3, h4⟩ := ih _ _ _ (KState.pop hids K)
      exact ⟨h1, h2, h3, ((out.prefix_append [n]).trans h4)⟩

/-- Steps not yet seen by the loop. -/
def notInCount (steps q out : List Step) : Nat :=
  (steps.filter (fun s => decide (¬(s ∈ out ∨ s ∈ q)))).length

lemma pushed_not_old {steps : List Step} (hids : (idsOf steps).Nodup)
    {n : Step} {q out : List Step} {ind : String → Int}
    (K : KState steps (n :: q) out ind) :
    ∀ s ∈ (processPop steps n ind).2, s ∈ steps ∧ ¬(s ∈ out ∨ s ∈ n :: q) := by
  have hpushedEq : (processPop steps n ind).2 =
      (dependents steps n).filter (fun s => decide (ind s.id - 1 = 0)) :=
    processPop_snd hids n ind
  intro s hs
  rw [hpushedEq, List.mem_filter, dependents, List.mem_filter] at hs
  obtain ⟨⟨hsS, hdep⟩, hz⟩ := hs
  rw [decide_eq_true_eq] at hdep hz
  refine ⟨hsS, ?_⟩
  intro hmem
  have hcl := (K.memChar s hsS).mp hmem
  have hic := K.indChar s hsS
  rw [hic] at hz
  omega

lemma remaining_decr {steps : List Step} (hids : (idsOf steps).Nodup)
    {n : Step} {q out : List Step} {ind : String → Int}
    (K : KState steps (n :: q) out ind) :
    (q ++ (processPop steps n ind).2).length +
      notInCount steps (q ++ (processPop steps n ind).2) (out ++ [n]) + 1
    = (n :: q).length + notInCount steps (n :: q) out := by
  have hsteps : steps.Nodup := hids.of_map
  have hsub : (processPop steps n ind).2.Sublist steps := by
    rw [processPop_snd hids n ind]
    exact (List.filter_sublist _).trans (dependents_sublist steps n)
  have hP := pushed_not_old hids K
  have hsplit := length_filter_split steps
    (fun s => decide (¬(s ∈ out ∨ s ∈ n :: q)))
    (fun s => decide (s ∈ (processPop steps n ind).2))
  have hc1 : steps.filter (fun s => decide (¬(s ∈ out ∨ s ∈ n :: q)) &&
      decide (s ∈ (processPop steps n ind).2)) =
      steps.filter (fun s => decide (s ∈ (processPop steps n ind).2)) := by
    apply List.filter_congr
    intro s _
    by_cases hmem : s ∈ (processPop steps n ind).2
    · have hno := (hP s hmem).2
      simp only [List.mem_cons, not_or] at hno
      simp [hmem, hno.1, hno.2.1, hno.2.2]
    · simp [hmem]
  have hc2 : steps.filter (fun s => decide (¬(s ∈ out ∨ s ∈ n :: q)) &&
      !(decide (s ∈ (processPop steps n ind).2))) =
      steps.filter (fun s =>
        decide (¬(s ∈ out ++ [n] ∨ s ∈ q ++ (processPop steps n ind).2))) := by
    apply List.filter_congr
    intro s _
    have hiff : (s ∈ out ++ [n] ∨ s ∈ q ++ (processPop steps n ind).2) ↔
        ((s ∈ out ∨ s ∈ n :: q) ∨ s ∈ (processPop steps n ind).2) := by
      simp only [List.mem_append, List.mem_singleton, List.mem_cons]
      tauto
    by_cases h1 : s ∈ out ∨ s ∈ n :: q <;>
      by_cases h2 : s ∈ (processPop steps n ind).2 <;>
        simp [h1, h2, hiff, Bool.and_assoc]
  have hc3 : steps.filter (fun s => decide (s ∈ (processPop steps n ind).2)) =
      (processPop steps n ind).2 := filter_mem_sublist hsteps hsub
  rw [hc1, hc3, hc2] at hsplit
  show (q ++ (processPop steps n ind).2).length + notInCount _ _ _ + 1 = _
  rw [List.length_append]
  unfold notInCount
  have hlen : (n :: q).length = q.length + 1 := rfl
  omega

lemma kahnLoop_exits {steps : List Step} (hids : (idsOf steps).Nodup) :
    ∀ fuel q out ind, KState steps q out ind →
      q.length + notInCount steps q out ≤ fuel →
      ∃ ind2, KState steps [] (kahnLoop steps fuel q ind out) ind2 := by
  intro fuel
  induction fuel with
  | zero =>
    intro q out ind K hle
    have hq : q = [] := List.length_eq_zero.mp (by omega)
    rw [hq] at K ⊢
    exact ⟨ind, K⟩
  | succ m ih =>
    intro q out ind K hle
    cases q with
    | nil => exact ⟨ind, K⟩
    | cons n q' =>
      have hstep : kahnLoop steps (m + 1) (n :: q') ind out =
          kahnLoop steps m (q' ++ (processPop steps n ind).2)
            (processPop steps n ind).1 (out ++ [n]) := rfl
      rw [hstep]
      have hd := remaining_decr hids K
      refine ih _ _ _ (KState.pop hids K) ?_
      have hlen : (n :: q').length = q'.length + 1 := by simp
      omega

/-- When the queue is exhausted and the plan is well-formed and acyclic,
every step has been popped. -/
lemma KState.done {steps : List Step} (hids : (idsOf steps).Nodup)
    (hclosed : ∀ s ∈ steps, ∀ d ∈ s.deps, ∃ t ∈ steps, t.id = d)
    (hdn : ∀ s ∈ steps, s.deps.Nodup) (hac : Acyclic steps)
    {out : List Step} {ind : String → Int} (K : KState steps [] out ind) :
    ∀ s ∈ steps, s ∈ out := by
  by_contra hcon
  push_neg at hcon
  obtain ⟨s0, hs0S, hs0O⟩ := hcon
  have hRne : steps.filter (fun s => decide (s ∉ out)) ≠ [] := by
    intro h
    have : s0 ∈ steps.filter (fun s => decide (s ∉ out)) :=
      List.mem_filter.mpr ⟨hs0S, by simpa using hs0O⟩
    rw [h] at this
    simp at this
  obtain ⟨y, hyR, hsrc⟩ := hac (steps.filter (fun s => decide (s ∉ out)))
    (fun s hs => (List.mem_filter.mp hs).1) hRne
  have hyS : y ∈ steps := (List.mem_filter.mp hyR).1
  have hyO : y ∉ out := by
    have := (List.mem_filter.mp hyR).2
    simpa using this
  have hdepsIn : ∀ d ∈ y.deps, d ∈ idsOf out := by
    intro d hd
    obtain ⟨t, htS, htid⟩ := hclosed y hyS d hd
    by_cases htO : t ∈ out
    · rw [← htid]
      exact List.mem_map_of_mem Step.id htO
    · have htR : t ∈ steps.filter (fun s => decide (s ∉ out)) :=
        List.mem_filter.mpr ⟨htS, by simpa using htO⟩
      have := hsrc t htR
      rw [htid] at this
      exact absurd hd this
  have hcnt : depCount out y = y.deps.length :=
    filter_length_eq_of_subset K.nodupOut (hdn y hyS) hdepsIn
  rcases (K.memChar y hyS).mpr hcnt with h | h
  · exact hyO h
  · simp at h

/-- C6 amended: for every plan with unique step ids, the order `runSteps`
executes (a prefix of `topoSort steps`) contains only declared steps, each
at most once, and lists every step after all the steps it depends on.  The
input-order fallback happens exactly when no step has an empty dependency
list (Kahn's queue starts empty and `out` stays empty); when some step has
no dependencies, only the steps Kahn's algorithm can order are returned —
on a cyclic graph the cycle members are dropped, not executed in input
order.  For a well-formed acyclic plan the order is a permutation of the
whole plan, i.e. a linear extension of the dependency DAG. -/
theorem C6_amended (steps : List Step) (hids : (idsOf steps).Nodup) :
    (∀ s ∈ topoSort steps, s ∈ steps) ∧
    (idsOf (topoSort steps)).Nodup ∧
    ((∀ s ∈ steps, s.deps ≠ []) → topoSort steps = steps) ∧
    ((∃ s ∈ steps, s.deps = []) →
      (topoSort steps).Pairwise (fun a b => b.id ∉ a.deps)) ∧
    ((∀ s ∈ steps, s.deps.Nodup) →
      (∀ s ∈ steps, ∀ d ∈ s.deps, ∃ t ∈ steps, t.id = d) →
      Acyclic steps → (topoSort steps).Perm steps) := by
  have hK0 := KState.init steps hids
  obtain ⟨hS1, hS2, hS3, _⟩ := kahnLoop_sound hids
    (steps.length + (steps.map (fun s => s.deps.length)).sum + 1)
    (initQ steps) [] (initInd steps) hK0
  refine ⟨?_, ?_, ?_, ?_, ?_⟩
  · intro s hs
    unfold topoSort at hs
    by_cases he : (kahnLoop steps (steps.length + (steps.map (fun s => s.deps.length)).sum + 1)
        (initQ steps) (initInd steps) []).isEmpty
    · rw [if_pos he] at hs; exact hs
    · rw [if_neg he] at hs; exact hS1 s hs
  · unfold topoSort
    by_cases he : (kahnLoop steps (steps.length + (steps.map (fun s => s.deps.length)).sum + 1)
        (initQ steps) (initInd steps) []).isEmpty
    · rw [if_pos he]; exact hids
    · rw [if_neg he]; exact hS2
  · intro hall
    have hq0 : initQ steps = [] := by
      rw [initQ, List.filter_eq_nil]
      intro s hs
      simp [List.isEmpty_iff, hall s hs]
    unfold topoSort
    rw [hq0, kahnLoop_nil_q]
    rfl
  · rintro ⟨s, hsS, hdeps⟩
    have hsQ : s ∈ initQ steps :=
      List.mem_filter.mpr ⟨hsS, by simp [List.isEmpty_iff, hdeps]⟩
    rcases hq : initQ steps with _ | ⟨n, rest⟩
    · rw [hq] at hsQ; simp at hsQ
    · unfold topoSort
      rw [hq]
      have hstep : kahnLoop steps (steps.length + (steps.map (fun s => s.deps.length)).sum + 1)
          (n :: rest) (initInd steps) [] =
          kahnLoop steps (steps.length + (steps.map (fun s => s.deps.length)).sum)
            (rest ++ (processPop steps n (initInd steps)).2)
            (processPop steps n (initInd steps)).1 ([] ++ [n]) := rfl
      rw [hstep]
      have hK1 : KState steps (n :: rest) [] (initInd steps) := by
        rw [← hq]; exact hK0
      obtain ⟨_, _, h3, h4⟩ := kahnLoop_sound hids
        (steps.length + (steps.map (fun s => s.deps.length)).sum)
        (rest ++ (processPop steps n (initInd steps)).2)
        ([] ++ [n]) (processPop steps n (initInd steps)).1 (KState.pop hids hK1)
      have hne : ¬ (kahnLoop steps (steps.length + (steps.map (fun s => s.deps.length)).sum)
          (rest ++ (processPop steps n (initInd steps)).2)
          (processPop steps n (initInd steps)).1 ([] ++ [n])).isEmpty := by
        obtain ⟨t, ht⟩ := h4
        rw [← ht]
        simp
      rw [if_neg hne]
      exact h3
  · intro hdn hclosed hac
    have hfuel : (initQ steps).length + notInCount steps (initQ steps) [] ≤
        steps.length + (steps.map (fun s => s.deps.length)).sum + 1 := by
      have hcongr : steps.filter (fun s => decide (¬(s ∈ ([] : List Step) ∨ s ∈ initQ steps)))
          = steps.filter (fun s => !s.deps.isEmpty) := by
        apply List.filter_congr
        intro s hsS
        have : s ∈ initQ steps ↔ s.deps.isEmpty = true := by
          rw [initQ, List.mem_filter]
          simp [hsS]
        by_cases hE : s.deps.isEmpty <;> simp [this, hE]
      have hpart := length_filter_partition steps (fun s => s.deps.isEmpty)
      unfold notInCount
      rw [hcongr]
      have hlq : (initQ steps).length = (steps.filter (fun s => s.deps.isEmpty)).length := rfl
      omega
    obtain ⟨ind2, K2⟩ := kahnLoop_exits hids
      (steps.length + (steps.map (fun s => s.deps.length)).sum + 1)
      (initQ steps) [] (initInd steps) hK0 hfuel
    have hAll := KState.done hids hclosed hdn hac K2
    have hperm : (kahnLoop steps (steps.length + (steps.map (fun s => s.deps.length)).sum + 1)
        (initQ steps) (initInd steps) []).Perm steps := by
      rw [List.perm_ext_iff_of_nodup (hS2.of_map) (hids.of_map)]
      intro a
      exact ⟨fun h => K2.outSub a h, fun h => hAll a h⟩
    unfold topoSort
    by_cases he : (kahnLoop steps (steps.length + (steps.map (fun s => s.deps.length)).sum + 1)
        (initQ steps) (initInd steps) []).isEmpty
    · rw [if_pos he]
    · rw [if_neg he]
      exact hperm

/-- Witness for C6_amended at the concrete three-step cyclic plan. -/
theorem C6_amended_witness :
    (idsOf [stepA, stepB, stepC]).Nodup ∧
    ((∀ s ∈ topoSort [stepA, stepB, stepC], s ∈ [stepA, stepB, stepC]) ∧
    (idsOf (topoSort [stepA, stepB, stepC])).Nodup ∧
    ((∀ s ∈ [stepA, stepB, stepC], s.deps ≠ []) →
      topoSort [stepA, stepB, stepC] = [stepA, stepB, stepC]) ∧
    ((∃ s ∈ [stepA, stepB, stepC], s.deps = []) →
      (topoSort [stepA, stepB, stepC]).Pairwise (fun a b => b.id ∉ a.deps)) ∧
    ((∀ s ∈ [stepA, stepB, stepC], s.deps.Nodup) →
      (∀ s ∈ [stepA, stepB, stepC], ∀ d ∈ s.deps, ∃ t ∈ [stepA, stepB, stepC], t.id = d) →
      Acyclic [stepA, stepB, stepC] →
      (topoSort [stepA, stepB, stepC]).Perm [stepA, stepB, stepC])) :=
  ⟨by decide, C6_amended [stepA, stepB, stepC] (by decide)⟩

/-! ## Router (src/ai/router.ts)

The neutral completion types of src/ai/types.ts, shared with the agent
loop. -/

structure ToolCallE where
  id : String
  name : String
  arguments : String
  deriving DecidableEq, Repr

/-- A conversation message; an absent `tool_calls` array is the empty
list. -/
structure MsgE where
  role : String
  content : String
  tool_calls : List ToolCallE
  tool_call_id : Option String
  deriving DecidableEq, Repr

inductive FinishReason where
  | stop
  | tool_calls
  | length
  | error
  deriving DecidableEq, Repr

structure RespE where
  message : MsgE
  finish_reason : FinishReason
  deriving DecidableEq, Repr

structure RequestE where
  messages : List MsgE
  tools : Option (List String)
  deriving DecidableEq, Repr

/-- JS `toLowerCase` over character lists. -/
def strToLower (s : String) : String :=
  (s.toList.map Char.toLower).asString

/-- One provider as the router's map holds it: its registry name, its
`isAvailable()` value, and the outcome `provider.complete(request)` yields
for the request under consideration (each provider is called at most once
per `complete` invocation). -/
structure ProviderM where
  name : String
  avail : Bool
  outcome : Except String RespE

/-- `getAvailableProviders`: names of available providers in registration
order. -/
def availableNames (ps : List ProviderM) : List String :=
  (ps.filter (fun p => p.avail)).map (fun p => p.name)

/-- `this.providers.get(name)` (unique keys: first match). -/
def getProvider (ps : List ProviderM) (name : String) : Option ProviderM :=
  ps.find? (fun p => decide (p.name = name))

/-- `this.providers.get(name)?.isAvailable()`. -/
def isAvail (ps : List ProviderM) (name : String) : Bool :=
  match getProvider ps name with
  | some p => p.avail
  | none => false

/-- The outcome of `provider.complete` for a named provider. -/
def outcomeOf (ps : List ProviderM) (name : String) : Except String RespE :=
  match getProvider ps name with
  | some p => p.outcome
  | none => .error "provider not registered"

/-- The lowercased content of the last user message, or `""`. -/
def lastUserContent (req : RequestE) : String :=
  strToLower ((((req.messages.reverse).find? (fun m => decide (m.role = "user"))).map
    (fun m => m.content)).getD "")

def matchAny (content : String) (pats : List String) : Bool :=
  pats.any (fun p => containsStr content p)

/-- `detectTaskType` (src/ai/router.ts): keyword heuristics over the last
user message; JS regex alternations of literal words are substring
checks. -/
def detectTaskType (req : RequestE) : String :=
  let content := lastUserContent req
  if matchAny content ["search", "find", "lookup", "current", "latest", "news",
      "today", "what is", "who is"] then "search"
  else if matchAny content ["code", "function", "class", "bug", "debug", "implement",
      "refactor", "fix", "error", "compile", "syntax"] then "coding"
  else if matchAny content ["analyze", "explain", "compare", "review", "understand",
      "why", "how does"] then "analysis"
  else if matchAny content ["plan", "steps", "how to", "strategy", "approach",
      "breakdown", "decompose"] then "planning"
  else if matchAny content ["image", "picture", "photo", "screenshot",
      "look at this"] then "vision"
  else if (req.tools.getD []).length > 0 then "execution"
  else "conversation"

/-- A routing rule's match clause and target. -/
structure RuleM where
  taskTypes : Option (List String)
  keywords : Option (List String)
  toolRequired : Option (List String)
  provider : String
  model : Option String

/-- The environment variables `DEFAULT_ROUTING_RULES` reads. -/
structure EnvM where
  defaultProvider : Option String
  perplexityModel : Option String
  anthropicModel : Option String
  openaiModel : Option String

/-- `DEFAULT_ROUTING_RULES` (src/ai/router.ts lines 24-61). -/
def defaultRules (env : EnvM) : List RuleM :=
  let claude := (env.anthropicModel.orElse (fun _ => env.openaiModel)).getD
    "claude-sonnet-4-20250514"
  let dflt := env.defaultProvider.getD "anthropic"
  [⟨some ["search"], some ["search", "find", "lookup", "current", "latest", "news", "today"],
      none, "perplexity", some (env.perplexityModel.getD "sonar-pro")⟩,
   ⟨some ["coding"], some ["code", "function", "bug", "debug", "implement", "refactor",
      "typescript", "python"], none, dflt, some claude⟩,
   ⟨some ["analysis"], some ["analyze", "explain", "compare", "review", "understand"],
      none, dflt, some claude⟩,
   ⟨some ["planning"], some ["plan", "steps", "how to", "strategy", "approach"],
      none, dflt, some claude⟩,
   ⟨some ["vision"], none, none, "openai", some (env.openaiModel.getD "gpt-4o")⟩,
   ⟨some ["execution"], none, some ["filesystem", "terminal", "editor", "computer"],
      dflt, some claude⟩]

structure Selection where
  provider : String
  model : Option String
  deriving DecidableEq, Repr

/-- Whether the rule loop of `selectProvider` skips rule `r` (`continue`):
its task-type list misses the detected type, or the keyword check fails
while the rule declares no task type, or a declared tool requirement is
unmet while `request.tools` is present. -/
def ruleSkips (r : RuleM) (taskType content : String)
    (tools : Option (List String)) : Bool :=
  (match r.taskTypes with
   | some ts => !(ts.contains taskType)
   | none => false) ||
  (match r.keywords, r.taskTypes with
   | some kws, none => !(kws.any (fun kw => containsStr content (strToLower kw)))
   | _, _ => false) ||
  (match r.toolRequired, tools with
   | some tr, some tl => !(tr.any (fun t => tl.contains t))
   | _, _ => false)

/-- The rule loop of `selectProvider`: take the first non-skipped rule
whose provider is available. -/
def ruleWalk (ps : List ProviderM) (taskType content : String)
    (tools : Option (List String)) : List RuleM → Option Selection
  | [] => none
  | r :: rest =>
    if ruleSkips r taskType content tools then ruleWalk ps taskType content tools rest
    else if isAvail ps r.provider then some ⟨r.provider, r.model⟩
    else ruleWalk ps taskType content tools rest

/-- `selectProvider` (src/ai/router.ts lines 153-207): forced provider if
available, else first matching rule with an available provider, else the
default provider, else the first available provider, else throw. -/
def selectProvider (ps : List ProviderM) (cfgRules : List RuleM) (env : EnvM)
    (defaultProvider : String) (req : RequestE) (force : Option String) :
    Except String Selection :=
  let forced : Bool :=
    match force with
    | some f => isAvail ps f
    | none => false
  if forced then
    .ok ⟨force.getD "", none⟩
  else
    let taskType := detectTaskType req
    let content := lastUserContent req
    match ruleWalk ps taskType content req.tools (cfgRules ++ defaultRules env) with
    | some sel => .ok sel
    | none =>
      if isAvail ps defaultProvider then .ok ⟨defaultProvider, none⟩
      else
        match availableNames ps with
        | a :: _ => .ok ⟨a, none⟩
        | [] => .error "No AI providers available"

/-- The provider walk of `AIRouter.complete` (lines 225-271): skip
unavailable entries, return the first success, remember the last error and
surface it after the chain is exhausted.  Also returns the list of
providers actually called, in order. -/
def walkChain (ps : List ProviderM) :
    Option String → List String → Except String RespE × List String
  | lastErr, [] => (.error (lastErr.getD "All AI providers failed"), [])
  | lastErr, name :: rest =>
    match getProvider ps name with
    | none => walkChain ps lastErr rest
    | some p =>
      if p.avail then
        match p.outcome with
        | .ok r => (.ok r, [name])
        | .error e =>
          let nxt := walkChain ps (some e) rest
          (nxt.1, name :: nxt.2)
      else walkChain ps lastErr rest

/-- `AIRouter.complete` (src/ai/router.ts lines 212-275): select a
provider, build the fallback chain (selected first, then every other
available provider in registration order), and walk it. -/
def routerComplete (ps : List ProviderM) (cfgRules : List RuleM) (env : EnvM)
    (defaultProvider : String) (req : RequestE) (force : Option String) :
    Except String RespE × List String :=
  match selectProvider ps cfgRules env defaultProvider req force with
  | .error e => (.error e, [])
  | .ok sel =>
    walkChain ps none
      (sel.provider :: (availableNames ps).filter (fun p => decide (p ≠ sel.provider)))

lemma mem_availableNames_isAvail {ps : List ProviderM}
    (hnd : (ps.map ProviderM.name).Nodup) {n : String}
    (h : n ∈ availableNames ps) : isAvail ps n = true := by
  rw [availableNames, List.mem_map] at h
  obtain ⟨p, hp, hpn⟩ := h
  rw [List.mem_filter] at hp
  have hpin : p ∈ ps := hp.1
  rw [isAvail, getProvider]
  rcases hq : ps.find? (fun q => decide (q.name = n)) with _ | q
  · rw [List.find?_eq_none] at hq
    exact absurd (by simpa using hpn) (by simpa using hq p hpin)
  · have hqn : q.name = n := by simpa using List.find?_some hq
    have hqin : q ∈ ps := List.mem_of_find?_eq_some hq
    have heq : q = p := List.inj_on_of_nodup_map hnd hqin hpin (by rw [hqn, hpn])
    simp only [hq]
    rw [heq]
    exact hp.2

lemma isAvail_mem_availableNames {ps : List ProviderM} {n : String}
    (h : isAvail ps n = true) : n ∈ availableNames ps := by
  rw [isAvail] at h
  rcases hq : getProvider ps n with _ | q
  · rw [hq] at h; simp at h
  · rw [hq] at h
    rw [getProvider] at hq
    have hqn : q.name = n := by simpa using List.find?_some hq
    have hqin : q ∈ ps := List.mem_of_find?_eq_some hq
    rw [availableNames, List.mem_map]
    exact ⟨q, List.mem_filter.mpr ⟨hqin, h⟩, hqn⟩

lemma ruleWalk_avail {ps : List ProviderM} {taskType content : String}
    {tools : Option (List String)} :
    ∀ {rules : List RuleM} {sel : Selection},
      ruleWalk ps taskType content tools rules = some sel →
      isAvail ps sel.provider = true := by
  intro rules
  induction rules with
  | nil => intro sel h; simp [ruleWalk] at h
  | cons r rest ih =>
    intro sel h
    rw [ruleWalk] at h
    by_cases hskip : ruleSkips r taskType content tools
    · rw [if_pos hskip] at h
      exact ih h
    · rw [if_neg hskip] at h
      by_cases hav : isAvail ps r.provider = true
      · rw [if_pos hav, Option.some_inj] at h
        rw [← h]
        exact hav
      · rw [if_neg hav] at h
        exact ih h

lemma selectProvider_avail {ps : List ProviderM} {cfgRules : List RuleM} {env : EnvM}
    {defaultProvider : String} {req : RequestE}
    (hnd : (ps.map ProviderM.name).Nodup)
    (hne : availableNames ps ≠ []) :
    ∃ sel, selectProvider ps cfgRules env defaultProvider req none = .ok sel ∧
      isAvail ps sel.provider = true := by
  have hred : selectProvider ps cfgRules env defaultProvider req none =
      (match ruleWalk ps (detectTaskType req) (lastUserContent req) req.tools
          (cfgRules ++ defaultRules env) with
       | some sel => .ok sel
       | none =>
         if isAvail ps defaultProvider then .ok ⟨defaultProvider, none⟩
         else
           match availableNames ps with
           | a :: _ => .ok ⟨a, none⟩
           | [] => .error "No AI providers available") := rfl
  rw [hred]
  rcases hrw : ruleWalk ps (detectTaskType req) (lastUserContent req) req.tools
      (cfgRules ++ defaultRules env) with _ | sel
  · by_cases hdef : isAvail ps defaultProvider = true
    · exact ⟨⟨defaultProvider, none⟩, by simp [hdef], hdef⟩
    · rcases hav : availableNames ps with _ | ⟨a, rest⟩
      · exact absurd hav hne
      · refine ⟨⟨a, none⟩, ?_, ?_⟩
        · simp [hdef, hav]
        · exact mem_availableNames_isAvail hnd (by rw [hav]; exact List.mem_cons_self a rest)
  · exact ⟨sel, by simp, ruleWalk_avail hrw⟩

lemma isAvail_getProvider {ps : List ProviderM} {n : String} (h : isAvail ps n = true) :
    ∃ p, getProvider ps n = some p ∧ p.avail = true ∧ outcomeOf ps n = p.outcome := by
  rw [isAvail] at h
  rcases hq : getProvider ps n with _ | p
  · rw [hq] at h; simp at h
  · rw [hq] at h
    exact ⟨p, rfl, h, by rw [outcomeOf, hq]⟩

lemma walkChain_all_fail {ps : List ProviderM} :
    ∀ (chain : List String) (lastErr : Option String),
      (∀ n ∈ chain, isAvail ps n = true) →
      (∀ n ∈ chain, ∃ e, outcomeOf ps n = .error e) →
      (walkChain ps lastErr chain).2 = chain ∧
      (∀ hne : chain ≠ [],
        ∃ e, outcomeOf ps (chain.getLast hne) = .error e ∧
          (walkChain ps lastErr chain).1 = .error e) := by
  intro chain
  induction chain with
  | nil =>
    intro lastErr _ _
    exact ⟨rfl, fun hne => absurd rfl hne⟩
  | cons n rest ih =>
    intro lastErr hav hfail
    obtain ⟨p, hgp, hpav, hout⟩ := isAvail_getProvider (hav n (List.mem_cons_self n rest))
    obtain ⟨e, he⟩ := hfail n (List.mem_cons_self n rest)
    have hpe : p.outcome = .error e := by rw [← hout]; exact he
    have hred : walkChain ps lastErr (n :: rest) =
        ((walkChain ps (some e) rest).1, n :: (walkChain ps (some e) rest).2) := by
      rw [walkChain]
      simp only [hgp, hpav, hpe, if_true]
    obtain ⟨ih1, ih2⟩ := ih (some e)
      (fun m hm => hav m (List.mem_cons_of_mem _ hm))
      (fun m hm => hfail m (List.mem_cons_of_mem _ hm))
    refine ⟨by rw [hred, ih1], ?_⟩
    intro hne
    cases rest with
    | nil =>
      refine ⟨e, ?_, ?_⟩
      · rw [List.getLast_singleton]
        exact he
      · rw [hred]
        rfl
    | cons r rest2 =>
      obtain ⟨e2, he2, hw2⟩ := ih2 (by simp)
      refine ⟨e2, ?_, ?_⟩
      · rw [List.getLast_cons (by simp)]
        exact he2
      · rw [hred]
        exact hw2

lemma walkChain_success {ps : List ProviderM} :
    ∀ (chain : List String) (lastErr : Option String),
      (∀ n ∈ chain, isAvail ps n = true) →
      (∃ n ∈ chain, (outcomeOf ps n).isOk = true) →
      (walkChain ps lastErr chain).1.isOk = true := by
  intro chain
  induction chain with
  | nil =>
    rintro lastErr _ ⟨n, hn, _⟩
    simp at hn
  | cons n rest ih =>
    rintro lastErr hav hex
    obtain ⟨p, hgp, hpav, hout⟩ := isAvail_getProvider (hav n (List.mem_cons_self n rest))
    rcases hpo : p.outcome with e | r
    · obtain ⟨m, hm, hmok⟩ := hex
      have hmrest : m ∈ rest := by
        rcases List.mem_cons.mp hm with h | h
        · exfalso
          rw [h, hout, hpo] at hmok
          simp [Except.isOk, Except.toBool] at hmok
        · exact h
      have hred : walkChain ps lastErr (n :: rest) =
          ((walkChain ps (some e) rest).1, n :: (walkChain ps (some e) rest).2) := by
        rw [walkChain]
        simp only [hgp, hpav, hpo, if_true]
      rw [hred]
      exact ih (some e) (fun q hq => hav q (List.mem_cons_of_mem _ hq)) ⟨m, hmrest, hmok⟩
    · have hred : walkChain ps lastErr (n :: rest) = (.ok r, [n]) := by
        rw [walkChain]
        simp only [hgp, hpav, hpo, if_true]
      rw [hred]
      rfl

lemma walkChain_tried {ps : List ProviderM} :
    ∀ (chain : List String) (lastErr : Option String),
      (∀ n ∈ chain, isAvail ps n = true) →
      (walkChain ps lastErr chain).2 <+: chain := by
  intro chain
  induction chain with
  | nil => intro lastErr _; exact ⟨[], rfl⟩
  | cons n rest ih =>
    intro lastErr hav
    obtain ⟨p, hgp, hpav, hout⟩ := isAvail_getProvider (hav n (List.mem_cons_self n rest))
    rcases hpo : p.outcome with e | r
    · have hred : walkChain ps lastErr (n :: rest) =
          ((walkChain ps (some e) rest).1, n :: (walkChain ps (some e) rest).2) := by
        rw [walkChain]
        simp only [hgp, hpav, hpo, if_true]
      rw [hred]
      obtain ⟨t, ht⟩ := ih (some e) (fun q hq => hav q (List.mem_cons_of_mem _ hq))
      exact ⟨t, by rw [List.cons_append, ht]⟩
    · have hred : walkChain ps lastErr (n :: rest) = (.ok r, [n]) := by
        rw [walkChain]
        simp only [hgp, hpav, hpo, if_true]
      rw [hred]
      exact ⟨rest, rfl⟩

/-- C8: `AIRouter.complete` tries the selected provider first and then
every other available provider in registration order; it returns a
successful response as long as some provider in the available set succeeds,
and raises an error only when every available provider's `complete` call
fails, the raised error being the error of the last provider in the
fallback chain. -/
theorem C8_router_fallback (ps : List ProviderM) (cfgRules : List RuleM) (env : EnvM)
    (defaultProvider : String) (req : RequestE)
    (hnd : (ps.map ProviderM.name).Nodup)
    (hne : availableNames ps ≠ []) :
    ∃ sel, selectProvider ps cfgRules env defaultProvider req none = .ok sel ∧
      sel.provider ∈ availableNames ps ∧
      (routerComplete ps cfgRules env defaultProvider req none).2 <+:
        sel.provider :: (availableNames ps).filter (fun p => decide (p ≠ sel.provider)) ∧
      ((∃ n ∈ availableNames ps, (outcomeOf ps n).isOk = true) →
        (routerComplete ps cfgRules env defaultProvider req none).1.isOk = true) ∧
      ((∀ n ∈ availableNames ps, ∃ e, outcomeOf ps n = .error e) →
        (routerComplete ps cfgRules env defaultProvider req none).2 =
          sel.provider :: (availableNames ps).filter (fun p => decide (p ≠ sel.provider)) ∧
        ∃ e, outcomeOf ps ((sel.provider ::
            (availableNames ps).filter (fun p => decide (p ≠ sel.provider))).getLast
              (by simp)) = .error e ∧
          (routerComplete ps cfgRules env defaultProvider req none).1 = .error e) := by
  obtain ⟨sel, hsel, hselAv⟩ := selectProvider_avail hnd hne
  have hselMem : sel.provider ∈ availableNames ps := isAvail_mem_availableNames hselAv
  have hchainAv : ∀ n ∈ sel.provider ::
      (availableNames ps).filter (fun p => decide (p ≠ sel.provider)),
      isAvail ps n = true := by
    intro n hn
    rcases List.mem_cons.mp hn with h | h
    · rw [h]; exact hselAv
    · exact mem_availableNames_isAvail hnd (List.mem_filter.mp h).1
  have hrc : routerComplete ps cfgRules env defaultProvider req none =
      walkChain ps none
        (sel.provider :: (availableNames ps).filter (fun p => decide (p ≠ sel.provider))) := by
    rw [routerComplete, hsel]
  refine ⟨sel, hsel, hselMem, ?_, ?_, ?_⟩
  · rw [hrc]
    exact walkChain_tried _ none hchainAv
  · rintro ⟨n, hn, hok⟩
    rw [hrc]
    apply walkChain_success _ none hchainAv
    by_cases hns : n = sel.provider
    · exact ⟨n, by rw [hns]; exact List.mem_cons_self _ _, hok⟩
    · exact ⟨n, List.mem_cons_of_mem _ (List.mem_filter.mpr ⟨hn, by simpa using hns⟩), hok⟩
  · intro hall
    have hchainFail : ∀ n ∈ sel.provider ::
        (availableNames ps).filter (fun p => decide (p ≠ sel.provider)),
        ∃ e, outcomeOf ps n = .error e := by
      intro n hn
      rcases List.mem_cons.mp hn with h | h
      · rw [h]; exact hall sel.provider hselMem
      · exact hall n (List.mem_filter.mp h).1
    obtain ⟨h1, h2⟩ := walkChain_all_fail _ none hchainAv hchainFail
    rw [hrc]
    exact ⟨h1, h2 (by simp)⟩

/-- A two-provider router state for the C8 witness: the selected provider
fails, the second succeeds. -/
def c8Resp : RespE := ⟨⟨"assistant", "hello", [], none⟩, FinishReason.stop⟩

def c8Providers : List ProviderM :=
  [⟨"anthropic", true, .error "boom"⟩, ⟨"openai", true, .ok c8Resp⟩]

/-- Witness for C8 at a concrete two-provider router. -/
theorem C8_router_fallback_witness :
    (c8Providers.map ProviderM.name).Nodup ∧
    availableNames c8Providers ≠ [] ∧
    (∃ sel, selectProvider c8Providers [] ⟨none, none, none, none⟩ "anthropic"
        ⟨[], none⟩ none = .ok sel ∧
      sel.provider ∈ availableNames c8Providers ∧
      (routerComplete c8Providers [] ⟨none, none, none, none⟩ "anthropic"
        ⟨[], none⟩ none).2 <+:
        sel.provider :: (availableNames c8Providers).filter (fun p => decide (p ≠ sel.provider)) ∧
      ((∃ n ∈ availableNames c8Providers, (outcomeOf c8Providers n).isOk = true) →
        (routerComplete c8Providers [] ⟨none, none, none, none⟩ "anthropic"
          ⟨[], none⟩ none).1.isOk = true) ∧
      ((∀ n ∈ availableNames c8Providers, ∃ e, outcomeOf c8Providers n = .error e) →
        (routerComplete c8Providers [] ⟨none, none, none, none⟩ "anthropic"
          ⟨[], none⟩ none).2 =
          sel.provider :: (availableNames c8Providers).filter (fun p => decide (p ≠ sel.provider)) ∧
        ∃ e, outcomeOf c8Providers ((sel.provider ::
            (availableNames c8Providers).filter (fun p => decide (p ≠ sel.provider))).getLast
              (by simp)) = .error e ∧
          (routerComplete c8Providers [] ⟨none, none, none, none⟩ "anthropic"
            ⟨[], none⟩ none).1 = .error e)) :=
  ⟨by decide, by decide,
    C8_router_fallback c8Providers [] ⟨none, none, none, none⟩ "anthropic" ⟨[], none⟩
      (by decide) (by decide)⟩

/-! ## Agent loop (src/core/types.ts, `AgentLoop.run`)

The router is modelled as an oracle from the iteration number to the
completion outcome (`.error` = a thrown exception, caught by the loop's
try/catch), and the tool dispatcher as an oracle from the global tool-call
index to the `executeTool` result; any real execution trace corresponds to
some assignment of these oracles.  Argument JSON parsing (with the
empty-object fallback) only affects the value handed to the dispatcher,
which the oracle already abstracts.  `invocations` counts dispatcher
invocations; `toolMsgContent` stands for the JSON serialization of the
tool output or `error` wrapper. -/

structure AgentCfg where
  maxIterations : Nat
  maxToolCalls : Nat
  deriving DecidableEq, Repr

structure LoopSt where
  messages : List MsgE
  iterations : Nat
  toolCalls : Nat
  errors : List String
  finalResponse : String
  invocations : Nat
  deriving DecidableEq, Repr

structure AgentResultE where
  success : Bool
  finalResponse : String
  iterations : Nat
  toolCalls : Nat
  errors : List String
  invocations : Nat
  deriving DecidableEq, Repr

def toolMsgContent (r : ToolResultE) : String :=
  if r.success then r.output else "error: " ++ r.error

/-- The completion-phrase check `isCompletionMessage`. -/
def isCompletionMessage (content : String) : Bool :=
  ["task complete", "objective complete", "successfully completed", "all done",
   "finished", "completed successfully", "mission accomplished"].any
    (fun ind => containsStr (strToLower content) ind)

/-- The branch condition at src/core/types.ts line 190:
`response.finish_reason === 'stop' || !response.message.tool_calls?.length`.
Note the disjunction: the no-tool-call branch is also taken when the finish
reason is `stop` but tool calls are present. -/
def noToolBranch (r : RespE) : Bool :=
  decide (r.finish_reason = FinishReason.stop) || r.message.tool_calls.isEmpty

/-- The `for (const toolCall of response.message.tool_calls)` loop: budget
check (recording `Max tool calls reached` once and breaking), counter
increment, dispatch via the oracle at the pre-increment index, tool-role
message append, per-failure error recording. -/
def processCalls (cfg : AgentCfg) (tools : Nat → ToolResultE) :
    List ToolCallE → LoopSt → LoopSt
  | [], st => st
  | tc :: rest, st =>
    if st.toolCalls ≥ cfg.maxToolCalls then
      { st with errors := st.errors ++ ["Max tool calls reached"] }
    else
      processCalls cfg tools rest
        { st with
          toolCalls := st.toolCalls + 1,
          invocations := st.invocations + 1,
          messages := st.messages ++
            [⟨"tool", toolMsgContent (tools st.toolCalls), [], some tc.id⟩],
          errors := if (tools st.toolCalls).success then st.errors
            else st.errors ++ [tc.name ++ ": " ++ (tools st.toolCalls).error] }

/-- The outcome of one loop iteration: `halt` models `break`. -/
inductive IterOut where
  | halt (st : LoopSt)
  | next (st : LoopSt)

def iterSt : IterOut → LoopSt
  | .halt st => st
  | .next st => st

/-- One iteration body of `AgentLoop.run` (after `iterations++`): router
outcome handling, assistant-message append, the no-tool-call branch
(completion phrase → break; free pass on the first iteration; injected
continue prompt afterwards), else the tool-call loop; a thrown router error
is caught, recorded and answered with an error prompt. -/
def loopIter (cfg : AgentCfg) (tools : Nat → ToolResultE) (st : LoopSt)
    (resp : Except String RespE) : IterOut :=
  match resp with
  | .error e =>
    .next { st with
      errors := st.errors ++ ["Iteration " ++ toString st.iterations ++ " error: " ++ e],
      messages := st.messages ++
        [⟨"user", "An error occurred: " ++ e ++
          ". Please analyze and try to recover or report the issue.", [], none⟩] }
  | .ok r =>
    let st0 := { st with messages := st.messages ++ [r.message] }
    if noToolBranch r then
      let st1 := { st0 with finalResponse := r.message.content }
      if isCompletionMessage r.message.content then .halt st1
      else if st.iterations > 1 then
        .next { st1 with messages := st1.messages ++
          [⟨"user", "Have you completed the objective? If yes, provide a final summary. If not, continue working.", [], none⟩] }
      else .next st1
    else .next (processCalls cfg tools r.message.tool_calls st0)

/-- The `while (iterations < maxIterations)` loop.  `fuel` is passed as
`maxIterations` at entry; since each pass increments `iterations`, the
fuel cannot run out before the loop condition fails. -/
def runLoop (cfg : AgentCfg) (router : Nat → Except String RespE)
    (tools : Nat → ToolResultE) : Nat → LoopSt → LoopSt
  | 0, st => st
  | fuel + 1, st =>
    if st.iterations < cfg.maxIterations then
      match loopIter cfg tools { st with iterations := st.iterations + 1 }
          (router (st.iterations + 1)) with
      | .halt st2 => st2
      | .next st2 => runLoop cfg router tools fuel st2
    else st

/-- The final `return` of `AgentLoop.run`: the single exit point, reached
both by `break` and by budget exhaustion. -/
def finishRun (st : LoopSt) : AgentResultE :=
  { success := st.errors.isEmpty, finalResponse := st.finalResponse,
    iterations := st.iterations, toolCalls := st.toolCalls,
    errors := st.errors, invocations := st.invocations }

/-- `AgentLoop.run`: seed the history with the system prompt and the
objective, run the loop, return the result. -/
def runAgent (cfg : AgentCfg) (router : Nat → Except String RespE)
    (tools : Nat → ToolResultE) (systemPrompt objective : String) : AgentResultE :=
  finishRun (runLoop cfg router tools cfg.maxIterations
    ⟨[⟨"system", systemPrompt, [], none⟩, ⟨"user", objective, [], none⟩], 0, 0, [], "", 0⟩)

lemma processCalls_invar (cfg : AgentCfg) (tools : Nat → ToolResultE) :
    ∀ (tcs : List ToolCallE) (st : LoopSt),
      st.invocations = st.toolCalls →
      (processCalls cfg tools tcs st).toolCalls ≤ max st.toolCalls cfg.maxToolCalls ∧
      (processCalls cfg tools tcs st).invocations = (processCalls cfg tools tcs st).toolCalls ∧
      (processCalls cfg tools tcs st).iterations = st.iterations := by
  intro tcs
  induction tcs with
  | nil =>
    intro st hsync
    exact ⟨le_max_left _ _, hsync, rfl⟩
  | cons tc rest ih =>
    intro st hsync
    rw [processCalls]
    by_cases hb : st.toolCalls ≥ cfg.maxToolCalls
    · rw [if_pos hb]
      exact ⟨le_max_left _ _, hsync, rfl⟩
    · rw [if_neg hb]
      obtain ⟨h1, h2, h3⟩ := ih
        { st with
          toolCalls := st.toolCalls + 1,
          invocations := st.invocations + 1,
          messages := st.messages ++ [⟨"tool", toolMsgContent (tools st.toolCalls), [],
            some tc.id⟩],
          errors := if (tools st.toolCalls).success then st.errors
            else st.errors ++ [tc.name ++ ": " ++ (tools st.toolCalls).error] }
        (by simp [hsync])
      refine ⟨?_, h2, h3⟩
      simp only at h1
      omega

lemma loopIter_invar (cfg : AgentCfg) (tools : Nat → ToolResultE)
    (st : LoopSt) (resp : Except String RespE)
    (hsync : st.invocations = st.toolCalls) :
    (iterSt (loopIter cfg tools st resp)).toolCalls ≤ max st.toolCalls cfg.maxToolCalls ∧
    (iterSt (loopIter cfg tools st resp)).invocations =
      (iterSt (loopIter cfg tools st resp)).toolCalls ∧
    (iterSt (loopIter cfg tools st resp)).iterations = st.iterations := by
  rcases resp with e | r
  · exact ⟨le_max_left _ _, hsync, rfl⟩
  · rw [loopIter]
    by_cases hb : noToolBranch r
    · rw [if_pos hb]
      by_cases hc : isCompletionMessage r.message.content
      · rw [if_pos hc]
        exact ⟨le_max_left _ _, hsync, rfl⟩
      · rw [if_neg hc]
        by_cases hi : st.iterations > 1
        · rw [if_pos hi]
          exact ⟨le_max_left _ _, hsync, rfl⟩
        · rw [if_neg hi]
          exact ⟨le_max_left _ _, hsync, rfl⟩
    · rw [if_neg hb]
      exact processCalls_invar cfg tools r.message.tool_calls _ hsync

lemma runLoop_invar (cfg : AgentCfg) (router : Nat → Except String RespE)
    (tools : Nat → ToolResultE) :
    ∀ (fuel : Nat) (st : LoopSt),
      st.iterations ≤ cfg.maxIterations →
      st.toolCalls ≤ cfg.maxToolCalls →
      st.invocations = st.toolCalls →
      (runLoop cfg router tools fuel st).iterations ≤ cfg.maxIterations ∧
      (runLoop cfg router tools fuel st).toolCalls ≤ cfg.maxToolCalls ∧
      (runLoop cfg router tools fuel st).invocations =
        (runLoop cfg router tools fuel st).toolCalls := by
  intro fuel
  induction fuel with
  | zero =>
    intro st h1 h2 h3
    exact ⟨h1, h2, h3⟩
  | succ m ih =>
    intro st h1 h2 h3
    rw [runLoop]
    by_cases hlt : st.iterations < cfg.maxIterations
    · rw [if_pos hlt]
      obtain ⟨k1, k2, k3⟩ := loopIter_invar cfg tools
        { st with iterations := st.iterations + 1 }
        (router (st.iterations + 1)) h3
      rcases hit : loopIter cfg tools { st with iterations := st.iterations + 1 }
          (router (st.iterations + 1)) with st2 | st2
      · rw [hit] at k1 k2 k3
        simp only [iterSt] at k1 k2 k3
        simp only [hit]
        have k1' : st2.toolCalls ≤ max st.toolCalls cfg.maxToolCalls := k1
        have k3' : st2.iterations = st.iterations + 1 := k3
        exact ⟨by omega, by omega, k2⟩
      · rw [hit] at k1 k2 k3
        simp only [iterSt] at k1 k2 k3
        simp only [hit]
        have k1' : st2.toolCalls ≤ max st.toolCalls cfg.maxToolCalls := k1
        have k3' : st2.iterations = st.iterations + 1 := k3
        exact ih st2 (by omega) (by omega) k2
    · rw [if_neg hlt]
      exact ⟨h1, h2, h3⟩

/-- C9: for every run of the agent loop, the returned result satisfies
`iterations ≤ maxIterations` and `toolCalls ≤ maxToolCalls`, and the total
number of tool-dispatcher invocations equals `toolCalls` — once the
counter has reached the budget, no further tool is invoked. -/
theorem C9_budgets (cfg : AgentCfg) (router : Nat → Except String RespE)
    (tools : Nat → ToolResultE) (systemPrompt objective : String) :
    (runAgent cfg router tools systemPrompt objective).iterations ≤ cfg.maxIterations ∧
    (runAgent cfg router tools systemPrompt objective).toolCalls ≤ cfg.maxToolCalls ∧
    (runAgent cfg router tools systemPrompt objective).invocations =
      (runAgent cfg router tools systemPrompt objective).toolCalls := by
  obtain ⟨h1, h2, h3⟩ := runLoop_invar cfg router tools cfg.maxIterations
    ⟨[⟨"system", systemPrompt, [], none⟩, ⟨"user", objective, [], none⟩], 0, 0, [], "", 0⟩
    (by simp) (by simp) rfl
  exact ⟨h1, h2, h3⟩

/-- C10: the returned result reports `success = true` exactly when the
accumulated errors list is empty, whichever way the run terminated; the
single return site computes `success` from `errors` alone. -/
theorem C10_success_iff_no_errors (cfg : AgentCfg) (router : Nat → Except String RespE)
    (tools : Nat → ToolResultE) (systemPrompt objective : String) :
    (runAgent cfg router tools systemPrompt objective).success = true ↔
      (runAgent cfg router tools systemPrompt objective).errors = [] := by
  show (finishRun _).success = true ↔ (finishRun _).errors = []
  rw [finishRun]
  exact List.isEmpty_iff

/-- A router response carrying one tool call but finish reason `stop`. -/
def c2Resp : RespE :=
  ⟨⟨"assistant", "ok then", [⟨"call-1", "filesystem", ""⟩], none⟩, FinishReason.stop⟩

def c2Router : Nat → Except String RespE := fun _ => .ok c2Resp

def c2Tools : Nat → ToolResultE := fun _ => ⟨true, "ok", ""⟩

/-- C2 counterexample: a response with one tool call and finish reason
`stop`.  The claim says the no-tool-call branch is taken only when there
are no tool calls and finish reason is `stop`, and that otherwise each tool
call is dispatched; but the code's condition is a disjunction, so here the
branch is taken and with a budget of 5 available the tool call is never
dispatched. -/
theorem C2_counterexample :
    c2Resp.message.tool_calls.length = 1 ∧
    c2Resp.finish_reason = FinishReason.stop ∧
    (runAgent ⟨1, 5⟩ c2Router c2Tools "sys" "obj").toolCalls = 0 ∧
    (runAgent ⟨1, 5⟩ c2Router c2Tools "sys" "obj").invocations = 0 := by
  decide

lemma processCalls_count (cfg : AgentCfg) (tools : Nat → ToolResultE) :
    ∀ (tcs : List ToolCallE) (st : LoopSt), st.toolCalls ≤ cfg.maxToolCalls →
      (processCalls cfg tools tcs st).toolCalls =
        st.toolCalls + min tcs.length (cfg.maxToolCalls - st.toolCalls) := by
  intro tcs
  induction tcs with
  | nil =>
    intro st _
    simp [processCalls]
  | cons tc rest ih =>
    intro st hb
    rw [processCalls]
    by_cases hge : st.toolCalls ≥ cfg.maxToolCalls
    · rw [if_pos hge]
      have hlen : (tc :: rest).length = rest.length + 1 := rfl
      simp only
      omega
    · rw [if_neg hge]
      have := ih
        { st with
          toolCalls := st.toolCalls + 1,
          invocations := st.invocations + 1,
          messages := st.messages ++
            [⟨"tool", toolMsgContent (tools st.toolCalls), [], some tc.id⟩],
          errors := if (tools st.toolCalls).success then st.errors
            else st.errors ++ [tc.name ++ ": " ++ (tools st.toolCalls).error] }
        (by simp only; omega)
      simp only at this
      rw [this]
      have hlen : (tc :: rest).length = rest.length + 1 := rfl
      omega

/-- C2 amended: in each iteration the no-tool-call branch is taken exactly
when the finish reason is `stop` OR the response has no tool calls (a
disjunction, not the claimed conjunction).  When it is taken, no tool is
dispatched even if tool calls are present; otherwise every tool call is
dispatched subject to the remaining budget. -/
theorem C2_amended (cfg : AgentCfg) (tools : Nat → ToolResultE) (st : LoopSt) (r : RespE)
    (hbudget : st.toolCalls ≤ cfg.maxToolCalls) :
    (noToolBranch r = true →
      (iterSt (loopIter cfg tools st (.ok r))).toolCalls = st.toolCalls ∧
      (iterSt (loopIter cfg tools st (.ok r))).invocations = st.invocations) ∧
    (noToolBranch r = false →
      (iterSt (loopIter cfg tools st (.ok r))).toolCalls =
        st.toolCalls + min r.message.tool_calls.length
          (cfg.maxToolCalls - st.toolCalls)) := by
  constructor
  · intro hb
    rw [loopIter]
    rw [if_pos hb]
    by_cases hc : isCompletionMessage r.message.content
    · rw [if_pos hc]
      exact ⟨rfl, rfl⟩
    · rw [if_neg hc]
      by_cases hi : st.iterations > 1
      · rw [if_pos hi]
        exact ⟨rfl, rfl⟩
      · rw [if_neg hi]
        exact ⟨rfl, rfl⟩
  · intro hb
    rw [loopIter]
    rw [if_neg (by rw [hb]; exact Bool.false_ne_true)]
    show (processCalls cfg tools r.message.tool_calls _).toolCalls = _
    have := processCalls_count cfg tools r.message.tool_calls
      { st with messages := st.messages ++ [r.message] } hbudget
    exact this

/-- A response with one tool call and finish reason `tool_calls`. -/
def c2RespTools : RespE :=
  ⟨⟨"assistant", "", [⟨"call-1", "think", ""⟩], none⟩, FinishReason.tool_calls⟩

def c2WitnessSt : LoopSt := ⟨[], 1, 0, [], "", 0⟩

/-- Witness for C2_amended at a concrete dispatching iteration. -/
theorem C2_amended_witness :
    c2WitnessSt.toolCalls ≤ (⟨1, 5⟩ : AgentCfg).maxToolCalls ∧
    ((noToolBranch c2RespTools = true →
      (iterSt (loopIter ⟨1, 5⟩ c2Tools c2WitnessSt (.ok c2RespTools))).toolCalls =
        c2WitnessSt.toolCalls ∧
      (iterSt (loopIter ⟨1, 5⟩ c2Tools c2WitnessSt (.ok c2RespTools))).invocations =
        c2WitnessSt.invocations) ∧
    (noToolBranch c2RespTools = false →
      (iterSt (loopIter ⟨1, 5⟩ c2Tools c2WitnessSt (.ok c2RespTools))).toolCalls =
        c2WitnessSt.toolCalls + min c2RespTools.message.tool_calls.length
          ((⟨1, 5⟩ : AgentCfg).maxToolCalls - c2WitnessSt.toolCalls))) :=
  ⟨by decide, C2_amended ⟨1, 5⟩ c2Tools c2WitnessSt c2RespTools (by decide)⟩

end AgenticV2
